import Mathlib

/-!
Verification development for the mlmi federated-learning repository.

Shallow embedding of the parts of the code the claims are about:
* `src/mlmi/reptile/omniglot.py` — the Reptile/Omniglot few-shot data
  pipeline (`Character`, `augment_dataset`, `_sample_mini_dataset`,
  `_split_train_test`, `_make_omniglot_dataset`);
* `src/mlmi/fedavg/femnist.py` — `load_mnist_dataset` and
  `load_femnist_dataset`;
* `src/mlmi/experiments/fedavg.py` and
  `src/mlmi/experiments/hierarchical_clustering_fedavg.py` — the two
  Sacred experiment drivers, embedded as trace-producing functions.

Randomness (`random.shuffle`, `np.random.choice`) is modelled by oracle
parameters: a shuffle oracle is an arbitrary function that is assumed (as
a hypothesis, where it matters) to permute its input; a `choice(...,
replace=False)` oracle is an explicit list of chosen positions assumed
distinct and in range.  Images on disk are modelled by natural-number
identifiers; a directory's png listing is a function `String → List Nat`.
-/

namespace Mlmi

/-! ## Omniglot pipeline (`src/mlmi/reptile/omniglot.py`) -/

/-- A single character class; mirrors `Character.__init__` (the image
cache `_cache` is an optimisation with no observable effect and is not
modelled). -/
structure Character where
  dir_path : String
  rotation : Nat
  deriving Repr, DecidableEq

/-- `Character.sample`: shuffle the directory's png names and take the
first `num_images`, reading each image.  `fs` gives the directory
listing, `shuf` is the `random.shuffle` oracle, and images are modelled
by their identifiers. -/
def Character.sample (fs : String → List Nat) (shuf : List Nat → List Nat)
    (c : Character) (num_images : Nat) : List Nat :=
  (shuf (fs c.dir_path)).take num_images

/-- `augment_dataset`: for each character yield the four rotations
0, 90, 180, 270 of it, in that order. -/
def augment_dataset (dataset : List Character) : List Character :=
  dataset.flatMap (fun character =>
    [0, 90, 180, 270].map (fun rotation => Character.mk character.dir_path rotation))

/-- `_sample_mini_dataset`: shuffle the dataset (`shufD` oracle), keep
the first `num_classes` classes, and for class index `ci` yield
`num_shots` samples labelled `ci`.  `shufN ci` is the name-shuffle
oracle used by the `sample` call of class `ci`. -/
def sampleMiniDataset (fs : String → List Nat)
    (shufD : List Character → List Character) (shufN : Nat → List Nat → List Nat)
    (dataset : List Character) (num_classes num_shots : Nat) : List (Nat × Nat) :=
  ((shufD dataset).take num_classes).enum.flatMap
    (fun p => (Character.sample fs (shufN p.1) p.2 num_shots).map (fun s => (s, p.1)))

/-- Number of pairs in `L` carrying label `lbl`. -/
def countLabel (lbl : Nat) (L : List (Nat × Nat)) : Nat :=
  L.countP (fun x => x.2 = lbl)

/-- The distinct labels of a sample list; models
`set(item[1] for item in train_set)` (the claims proved below do not
depend on the iteration order of a Python set). -/
def distinctLabels (samples : List (Nat × Nat)) : List Nat :=
  (samples.map Prod.snd).dedup

/-- The body of `_split_train_test`'s innermost loop: scan `train_set`
for the first pair labelled `lbl`, delete it and return it. -/
def removeFirst (lbl : Nat) : List (Nat × Nat) → Option (List (Nat × Nat) × (Nat × Nat))
  | [] => none
  | x :: xs =>
    if x.2 = lbl then some (xs, x)
    else
      match removeFirst lbl xs with
      | some (r, it) => some (x :: r, it)
      | none => none

/-- One iteration of `_split_train_test`'s outer `for _ in range(test_shots)`
loop: for each label move the first matching pair from train to test
(appending), skipping labels with no remaining pair. -/
def movePass : List Nat → List (Nat × Nat) × List (Nat × Nat) → List (Nat × Nat) × List (Nat × Nat)
  | [], st => st
  | l :: ls, (train, test) =>
    match removeFirst l train with
    | some (train', item) => movePass ls (train', test ++ [item])
    | none => movePass ls (train, test)

/-- `test_shots` iterations of `movePass`. -/
def movePasses (labels : List Nat) : Nat → List (Nat × Nat) × List (Nat × Nat) → List (Nat × Nat) × List (Nat × Nat)
  | 0, st => st
  | n + 1, st => movePasses labels n (movePass labels st)

/-- `_split_train_test`: run the passes, then raise `IndexError` when the
test set fell short of `len(labels) * test_shots` pairs. -/
def splitTrainTest (samples : List (Nat × Nat)) (test_shots : Nat) :
    Except String (List (Nat × Nat) × List (Nat × Nat)) :=
  let labels := distinctLabels samples
  let st := movePasses labels test_shots (samples, [])
  if st.2.length < labels.length * test_shots then
    .error "IndexError: not enough examples of each class for test set"
  else
    .ok st

/-- A `torch.utils.data.DataLoader` over an Omniglot mini-dataset, keeping
the arguments passed at the two construction sites of
`_make_omniglot_dataset`. -/
structure OmniglotDataLoader where
  dataset : List (Nat × Nat)
  batch_size : Int
  shuffle : Bool
  deriving Repr, DecidableEq

/-- The fields of the `FederatedDatasetData` record assembled by
`_make_omniglot_dataset` (`train_data_global`/`test_data_global` are the
constant `None` there and `class_num` is `None`; they are not modelled).
Per-client dictionaries keyed `0 .. num_clients - 1` are lists indexed by
the client number. -/
structure OmniglotFedData where
  client_num : Nat
  train_data_num : Nat
  test_data_num : Nat
  data_local_num_dict : List Nat
  data_local_train_num_dict : List Nat
  data_local_test_num_dict : List Nat
  train_data_local_dict : List OmniglotDataLoader
  test_data_local_dict : List OmniglotDataLoader
  deriving Repr, DecidableEq

/-- The body of `_make_omniglot_dataset`'s client loop up to the split:
sample a mini dataset for client `i` with `num_shots_per_class + 1` shots
per class and split it with `test_shots = 1` (the default used there). -/
def makeClientSplit (fs : String → List Nat)
    (shufD : Nat → List Character → List Character)
    (shufN : Nat → Nat → List Nat → List Nat)
    (dataset : List Character) (num_classes_per_client num_shots_per_class i : Nat) :
    Except String (List (Nat × Nat) × List (Nat × Nat)) :=
  splitTrainTest
    (sampleMiniDataset fs (shufD i) (shufN i) dataset num_classes_per_client
      (num_shots_per_class + 1)) 1

/-- Run `makeClientSplit` for every client index in order, propagating the
first uncaught `IndexError`. -/
def makeOmniglotSplits (fs : String → List Nat)
    (shufD : Nat → List Character → List Character)
    (shufN : Nat → Nat → List Nat → List Nat)
    (dataset : List Character) (num_classes_per_client num_shots_per_class : Nat) :
    List Nat → Except String (List (List (Nat × Nat) × List (Nat × Nat)))
  | [] => .ok []
  | i :: rest =>
    match makeClientSplit fs shufD shufN dataset num_classes_per_client num_shots_per_class i with
    | .error e => .error e
    | .ok s =>
      match makeOmniglotSplits fs shufD shufN dataset num_classes_per_client num_shots_per_class rest with
      | .error e => .error e
      | .ok r => .ok (s :: r)

/-- `_make_omniglot_dataset`: loop over `range(num_clients)`, split each
client's sampled mini dataset into train/test, and accumulate the counts
and loaders into the `FederatedDatasetData` fields.  `inner_batch_size`
of `-1` means full-batch loaders.  The per-client shuffle oracles `shufD`
(dataset shuffle) and `shufN` (png-name shuffles, per class index) model
`random.shuffle`. -/
def makeOmniglotDataset (fs : String → List Nat)
    (shufD : Nat → List Character → List Character)
    (shufN : Nat → Nat → List Nat → List Nat)
    (dataset : List Character) (num_clients num_classes_per_client num_shots_per_class : Nat)
    (inner_batch_size : Int) : Except String OmniglotFedData :=
  match makeOmniglotSplits fs shufD shufN dataset num_classes_per_client num_shots_per_class
      (List.range num_clients) with
  | .error e => .error e
  | .ok splits =>
    .ok { client_num := num_clients
          train_data_num := (splits.map (fun s => s.1.length)).sum
          test_data_num := (splits.map (fun s => s.2.length)).sum
          data_local_num_dict := splits.map (fun s => s.1.length + s.2.length)
          data_local_train_num_dict := splits.map (fun s => s.1.length)
          data_local_test_num_dict := splits.map (fun s => s.2.length)
          train_data_local_dict := splits.map (fun s =>
            ⟨s.1, if inner_batch_size = -1 then (s.1.length : Int) else inner_batch_size, true⟩)
          test_data_local_dict := splits.map (fun s =>
            ⟨s.2, if inner_batch_size = -1 then (s.2.length : Int) else inner_batch_size, true⟩) }

/-! ## MNIST loader (`src/mlmi/fedavg/femnist.py`, `load_mnist_dataset`) -/

/-- A `torch.utils.data.DataLoader`, keeping the constructor arguments
used in `load_mnist_dataset`. -/
structure DataLoaderM (DS : Type) where
  dataset : DS
  batch_size : Nat
  shuffle : Bool
  drop_last : Bool

/-- `DatasetSplit(dataset, idxs)`: a view of `dataset` restricted to the
index list `idxs`. -/
structure DatasetSplitM (DS : Type) where
  dataset : DS
  idxs : List Nat

/-- The fields of the `FederatedDatasetData` record built by
`load_mnist_dataset` that the claims are about (the per-client count
dictionaries and the per-client test loaders carry no information beyond
what is modelled and are omitted). -/
structure MnistFedData (DS : Type) where
  client_num : Nat
  train_data_global : DataLoaderM DS
  test_data_global : DataLoaderM DS
  train_data_local_dict : List (DataLoaderM (DatasetSplitM DS))
  class_num : Nat
  batch_size : Nat

/-- The index list `np.concatenate` builds for one client from its two
chosen shards: `idxs[rand * 300 : (rand + 1) * 300]` for each shard,
where `idxs` (`sortedIdxs` here) is the label-argsorted index array and
`num_imgs = 300` as in the source. -/
def clientPartition (sortedIdxs : Nat → Nat) (pick : Nat × Nat) : List Nat :=
  ((List.range 300).map (fun k => sortedIdxs (pick.1 * 300 + k))) ++
    ((List.range 300).map (fun k => sortedIdxs (pick.2 * 300 + k)))

/-- Validity of a `np.random.choice(idx_shard, 2, replace=False)` oracle:
each client's two shard choices are distinct members of the current pool,
and the pool then loses exactly those two shards
(`idx_shard = list(set(idx_shard) - rand_set)`). -/
def validPicks : List (Nat × Nat) → List Nat → Bool
  | [], _ => true
  | p :: rest, pool =>
    decide (p.1 ∈ pool) && decide (p.2 ∈ pool) && decide (p.1 ≠ p.2) &&
      validPicks rest (pool.filter (fun x => decide (x ≠ p.1) && decide (x ≠ p.2)))

/-- `load_mnist_dataset`: the raw datasets are abstract (`DS`),
`sortedIdxs` models the label-argsorted index array `idxs_labels[0, :]`
(a permutation of `arange(200 * 300)`), and `picks` is the shard-choice
oracle, one pair per client.  Each client's training loader wraps a
`DatasetSplit` of the *train* dataset on its partition; the global train
loader wraps `dataset_test` and the global test loader wraps
`dataset_train`, exactly as in lines 72-73 of the source. -/
def load_mnist_dataset (DS : Type) (dataset_train dataset_test : DS)
    (sortedIdxs : Nat → Nat) (picks : List (Nat × Nat)) (num_clients batch_size : Nat) :
    MnistFedData DS :=
  { client_num := num_clients
    train_data_global := ⟨dataset_test, batch_size, true, false⟩
    test_data_global := ⟨dataset_train, batch_size, true, false⟩
    train_data_local_dict := picks.map (fun p =>
      ⟨⟨dataset_train, clientPartition sortedIdxs p⟩, batch_size, true, false⟩)
    class_num := 10
    batch_size := batch_size }

/-! ## FEMNIST loader (`src/mlmi/fedavg/femnist.py`, `load_femnist_dataset`) -/

/-- One federated EMNIST client as seen by `load_femnist_dataset`: its id
and the sizes of its train and test example groups in the HDF5 files. -/
structure FemClient where
  id : Nat
  trainSize : Nat
  testSize : Nat
  deriving Repr, DecidableEq

/-- The clients collected by the `sample_threshold` filter: those with
`sample_threshold < len(h5data_train['label'])`. -/
def eligibleClients (sample_threshold : Int) (clients : List FemClient) : List FemClient :=
  clients.filter (fun c => decide (sample_threshold < (c.trainSize : Int)))

/-- Validity of a `RANDOM.choice(pop, size=n, replace=False)` oracle
given as a list of positions into the population list. -/
def ValidSel (sel : List Nat) (bound n : Nat) : Prop :=
  sel.length = n ∧ sel.Nodup ∧ ∀ i ∈ sel, i < bound

/-- `load_femnist_dataset`, client-selection part.  `clients` stands for
`emnist_train.client_ids` with their example-group sizes; `sel0` is the
choice oracle of the unconditional selection (line 113) and `sel` the one
of the threshold-filtered re-selection (line 129).  `np.random.choice`
with `replace=False` raises `ValueError` when the population is smaller
than the requested size, and the explicit `raise ValueError` fires when
fewer than `num_clients` clients exceed the threshold. -/
def load_femnist_dataset (clients : List FemClient) (num_clients : Nat)
    (sample_threshold : Int) (sel0 sel : List Nat) : Except String (List FemClient) :=
  if clients.length < num_clients then
    .error "ValueError: cannot take a larger sample than population when replace is False"
  else if sample_threshold ≠ -1 then
    let eligible := eligibleClients sample_threshold clients
    if eligible.length < num_clients then
      .error "ValueError: too few clients above sample threshold"
    else
      .ok (sel.map (fun i => eligible.getD i (FemClient.mk 0 0 0)))
  else
    .ok (sel0.map (fun i => clients.getD i (FemClient.mk 0 0 0)))

/-! ## Experiment drivers (`src/mlmi/experiments/fedavg.py` and
`src/mlmi/experiments/hierarchical_clustering_fedavg.py`)

Both drivers are embedded as trace-producing functions: the returned list
records, in program order, the externally visible steps the Python code
performs (seeding, dataset loading, context/logger creation, the
label-distribution image log, training runs), and the `Option String`
component is the uncaught exception, if any.  Loop iterations are
identified by their indices into the hyperparameter lists. -/

/-- `generate_configuration` from
`hierarchical_clustering_fedavg.py`: nested generator over the two
lists. -/
def generate_configuration {α β : Type} (init_rounds_list : List α)
    (max_value_criterion_list : List β) : List (α × β) :=
  init_rounds_list.flatMap (fun ri => max_value_criterion_list.map (fun mv => (ri, mv)))

/-- Steps of `run_fedavg_experiment` (`experiments/fedavg.py`). -/
inductive FAEvent where
  | fixSeeds
  | loadDataset (name : String)
  | createContext (cfIdx : Nat)
  | createLogger (cfIdx : Nat)
  | logDatasetDistribution (cfIdx : Nat)
  | runFedavg (cfIdx : Nat)
  deriving Repr, DecidableEq

/-- The `for cf in client_fraction` loop of `run_fedavg_experiment`,
iterating over the positions of `client_fraction` (the fraction value
itself only parametrises the opaque context).  `logged` is the
`data_distribution_logged` flag: the distribution image is emitted only
when it is still `false`, after which it is `true` for good. -/
def fedavgClientFractionLoop (logged : Bool) : List Nat → List FAEvent
  | [] => []
  | ci :: rest =>
    [FAEvent.createContext ci, FAEvent.createLogger ci] ++
      (if logged then [] else [FAEvent.logDatasetDistribution ci]) ++
      [FAEvent.runFedavg ci] ++ fedavgClientFractionLoop true rest

/-- `run_fedavg_experiment`: seed, dispatch on `dataset` (raising
`ValueError` on anything but `femnist`/`mnist`/`ham10k`), then the
client-fraction loop. -/
def run_fedavg_experiment {α : Type} (dataset : String) (client_fraction : List α) :
    List FAEvent × Option String :=
  if dataset = "femnist" then
    ([FAEvent.fixSeeds, FAEvent.loadDataset "femnist"] ++
      fedavgClientFractionLoop false (List.range client_fraction.length), none)
  else if dataset = "mnist" then
    ([FAEvent.fixSeeds, FAEvent.loadDataset "mnist"] ++
      fedavgClientFractionLoop false (List.range client_fraction.length), none)
  else if dataset = "ham10k" then
    ([FAEvent.fixSeeds, FAEvent.loadDataset "ham10k"] ++
      fedavgClientFractionLoop false (List.range client_fraction.length), none)
  else
    ([FAEvent.fixSeeds], some "ValueError: dataset unknown")

/-- A client participant of the hierarchical driver: an id and the
current model state (model states are abstract identifiers). -/
structure HClient where
  id : Nat
  model : Nat
  deriving Repr, DecidableEq

/-- Modelled from the spec: `overwrite_participants_models` lives in
`mlmi/utils.py`, which is not under `src/`; per the spec's "state
checkpointing/restore" it writes the given checkpointed model state into
every client participant. -/
def overwrite_participants_models (state : Nat) (clients : List HClient) : List HClient :=
  clients.map (fun c => { c with model := state })

/-- Steps of `run_hierarchical_clustering`
(`experiments/hierarchical_clustering_fedavg.py`). -/
inductive HCEvent where
  | fixSeeds
  | loadDataset (name : String)
  | scratchLabels
  | createContext (cfIdx lrIdx : Nat)
  | createLogger (cfIdx lrIdx : Nat)
  | logDatasetDistribution (cfIdx lrIdx : Nat)
  | runFedavg (cfIdx lrIdx : Nat)
  | loadState (round : Nat)
  | overwriteModels (round : Nat)
  | createClusterLogger (init_rounds max_value : Nat)
  | runHierarchical (init_rounds max_value num_rounds_init num_rounds_cluster : Nat)
      (models : List Nat)
  deriving Repr, DecidableEq

/-- The `for init_rounds, max_value in generate_configuration(...)` loop:
load the round-`init_rounds` checkpoint (`loadSt` models
`load_fedavg_state`), overwrite every client's model with it, build the
`ClusterArgs` with `num_rounds_init = init_rounds` and
`num_rounds_cluster = total_fedavg_rounds - init_rounds`, create the
cluster logger and invoke `run_fedavg_hierarchical` on the overwritten
clients.  The client list is threaded because the overwrite mutates the
participants in place. -/
def clusterLoop (loadSt : Nat → Nat) (total_fedavg_rounds : Nat) :
    List HClient → List (Nat × Nat) → List HCEvent
  | _, [] => []
  | clients, (ri, mv) :: rest =>
    let round_model_state := loadSt ri
    let clients' := overwrite_participants_models round_model_state clients
    [HCEvent.loadState ri, HCEvent.overwriteModels ri,
     HCEvent.createClusterLogger ri mv,
     HCEvent.runHierarchical ri mv ri (total_fedavg_rounds - ri) (clients'.map HClient.model)] ++
      clusterLoop loadSt total_fedavg_rounds clients' rest

/-- The `for lr_i in lr` loop body of `run_hierarchical_clustering`:
context and logger creation, the flag-guarded distribution log, the
initial `run_fedavg` (whose resulting clients `runFA` supplies), then the
cluster-configuration loop.  Returns the trace together with the
`data_distribution_logged` flag after the loop. -/
def hcLrLoop (loadSt : Nat → Nat) (runFA : Nat → Nat → List HClient)
    (total_fedavg_rounds : Nat) (pairs : List (Nat × Nat)) (ci : Nat) (logged : Bool) :
    List Nat → List HCEvent × Bool
  | [] => ([], logged)
  | li :: rest =>
    let tail := hcLrLoop loadSt runFA total_fedavg_rounds pairs ci true rest
    ([HCEvent.createContext ci li, HCEvent.createLogger ci li] ++
        (if logged then [] else [HCEvent.logDatasetDistribution ci li]) ++
        [HCEvent.runFedavg ci li] ++
        clusterLoop loadSt total_fedavg_rounds (runFA ci li) pairs ++ tail.1,
      tail.2)

/-- The `for cf in client_fraction` loop, threading the
`data_distribution_logged` flag through the nested lr loop. -/
def hcCfLoop (loadSt : Nat → Nat) (runFA : Nat → Nat → List HClient)
    (total_fedavg_rounds : Nat) (pairs : List (Nat × Nat)) (numLr : Nat) (logged : Bool) :
    List Nat → List HCEvent
  | [] => []
  | ci :: rest =>
    let inner := hcLrLoop loadSt runFA total_fedavg_rounds pairs ci logged (List.range numLr)
    inner.1 ++ hcCfLoop loadSt runFA total_fedavg_rounds pairs numLr inner.2 rest

/-- `run_hierarchical_clustering`: seed, dataset dispatch (`ValueError`
on anything but `femnist`), the `num_label_limit` label scratch, then the
nested hyperparameter loops.  `max_value_criterion` is passed as a list
(the source wraps a scalar into a singleton list first). -/
def run_hierarchical_clustering {α β : Type} (dataset : String) (num_label_limit : Int)
    (client_fraction : List α) (lr : List β)
    (cluster_initialization_rounds : List Nat) (max_value_criterion : List Nat)
    (total_fedavg_rounds : Nat)
    (loadSt : Nat → Nat) (runFA : Nat → Nat → List HClient) :
    List HCEvent × Option String :=
  if dataset = "femnist" then
    ([HCEvent.fixSeeds, HCEvent.loadDataset "femnist"] ++
       (if num_label_limit ≠ -1 then [HCEvent.scratchLabels] else []) ++
       hcCfLoop loadSt runFA total_fedavg_rounds
         (generate_configuration cluster_initialization_rounds max_value_criterion)
         lr.length false (List.range client_fraction.length), none)
  else
    ([HCEvent.fixSeeds], some "ValueError: dataset unknown")

/-- Recogniser for label-distribution image logs in the fedavg driver. -/
def FAEvent.isLogDist : FAEvent → Bool
  | .logDatasetDistribution _ => true
  | _ => false

/-- Recogniser for experiment-context or logger creation in the fedavg
driver. -/
def FAEvent.isCtxOrLogger : FAEvent → Bool
  | .createContext _ => true
  | .createLogger _ => true
  | _ => false

/-- Recogniser for label-distribution image logs in the hierarchical
driver (the full-dataset one, not the per-cluster heatmaps). -/
def HCEvent.isLogDist : HCEvent → Bool
  | .logDatasetDistribution _ _ => true
  | _ => false

/-- Recogniser for experiment-context or logger creation in the
hierarchical driver. -/
def HCEvent.isCtxOrLogger : HCEvent → Bool
  | .createContext _ _ => true
  | .createLogger _ _ => true
  | .createClusterLogger _ _ => true
  | _ => false

/-! ## Lemmas about `_split_train_test` -/

theorem countLabel_nil (lbl : Nat) : countLabel lbl [] = 0 := rfl

theorem countLabel_cons (lbl : Nat) (x : Nat × Nat) (L : List (Nat × Nat)) :
    countLabel lbl (x :: L) = countLabel lbl L + (if x.2 = lbl then 1 else 0) := by
  simp [countLabel, List.countP_cons]

theorem countLabel_append (lbl : Nat) (L₁ L₂ : List (Nat × Nat)) :
    countLabel lbl (L₁ ++ L₂) = countLabel lbl L₁ + countLabel lbl L₂ :=
  List.countP_append _ _ _

theorem countLabel_pos_iff {lbl : Nat} {L : List (Nat × Nat)} :
    0 < countLabel lbl L ↔ ∃ x ∈ L, x.2 = lbl := by
  simp [countLabel, List.countP_pos_iff]

theorem countLabel_eq_of_perm {L₁ L₂ : List (Nat × Nat)} (h : L₁.Perm L₂) (lbl : Nat) :
    countLabel lbl L₁ = countLabel lbl L₂ :=
  h.countP_eq _

theorem removeFirst_none {lbl : Nat} : ∀ {L : List (Nat × Nat)},
    removeFirst lbl L = none ↔ countLabel lbl L = 0 := by
  intro L
  induction L with
  | nil => simp [removeFirst, countLabel_nil]
  | cons x xs ih =>
    rw [countLabel_cons]
    by_cases hx : x.2 = lbl
    · simp [removeFirst, hx]
    · cases hr : removeFirst lbl xs with
      | none =>
        have := ih.mp hr
        simp [removeFirst, hx, hr, this]
      | some pr =>
        have : ¬ countLabel lbl xs = 0 := by
          intro h0
          rw [ih.mpr h0] at hr
          exact Option.noConfusion hr
        simp [removeFirst, hx, hr]
        omega

theorem removeFirst_some {lbl : Nat} : ∀ {L R : List (Nat × Nat)} {it : Nat × Nat},
    removeFirst lbl L = some (R, it) → it.2 = lbl ∧ L.Perm (it :: R) := by
  intro L
  induction L with
  | nil => intro R it h; exact Option.noConfusion h
  | cons x xs ih =>
    intro R it h
    by_cases hx : x.2 = lbl
    · rw [removeFirst, if_pos hx] at h
      obtain ⟨h1, h2⟩ := Prod.mk.injEq .. ▸ Option.some.injEq _ _ ▸ h
      subst h1; subst h2
      exact ⟨hx, List.Perm.refl _⟩
    · rw [removeFirst, if_neg hx] at h
      cases hr : removeFirst lbl xs with
      | none => rw [hr] at h; exact Option.noConfusion h
      | some pr =>
        obtain ⟨r', it'⟩ := pr
        rw [hr] at h
        obtain ⟨h1, h2⟩ := Prod.mk.injEq .. ▸ Option.some.injEq _ _ ▸ h
        obtain ⟨hlb, hperm⟩ := ih hr
        subst h1; subst h2
        refine ⟨hlb, ?_⟩
        exact (hperm.cons x).trans (List.Perm.swap it' x r')

theorem removeFirst_some_counts {lbl : Nat} {L R : List (Nat × Nat)} {it : Nat × Nat}
    (h : removeFirst lbl L = some (R, it)) :
    countLabel lbl L = countLabel lbl R + 1 ∧
      ∀ m, m ≠ lbl → countLabel m L = countLabel m R := by
  obtain ⟨hlb, hperm⟩ := removeFirst_some h
  constructor
  · rw [countLabel_eq_of_perm hperm lbl, countLabel_cons, if_pos hlb]
  · intro m hm
    rw [countLabel_eq_of_perm hperm m, countLabel_cons]
    have hne : ¬ (it.2 = m) := by rw [hlb]; exact fun h => hm h.symm
    rw [if_neg hne, Nat.add_zero]

theorem movePass_perm : ∀ (ls : List Nat) (train test : List (Nat × Nat)),
    ((movePass ls (train, test)).1 ++ (movePass ls (train, test)).2).Perm (train ++ test) := by
  intro ls
  induction ls with
  | nil => intro train test; exact List.Perm.refl _
  | cons l ls ih =>
    intro train test
    cases hr : removeFirst l train with
    | none => simpa [movePass, hr] using ih train test
    | some pr =>
      obtain ⟨train', item⟩ := pr
      have hp := (removeFirst_some hr).2
      have s1 : (train' ++ (test ++ [item])).Perm (train' ++ (item :: test)) :=
        List.Perm.append_left train' (List.perm_append_singleton item test)
      have s2 : (train' ++ (item :: test)).Perm (item :: (train' ++ test)) :=
        List.perm_middle
      have s3 : ((item :: train') ++ test).Perm (train ++ test) :=
        List.Perm.append_right test hp.symm
      have step : (train' ++ (test ++ [item])).Perm (train ++ test) :=
        (s1.trans s2).trans s3
      simpa [movePass, hr] using (ih train' (test ++ [item])).trans step

theorem movePass_countLabel_not_mem {l : Nat} : ∀ (ls : List Nat), l ∉ ls →
    ∀ (train test : List (Nat × Nat)),
      countLabel l (movePass ls (train, test)).1 = countLabel l train ∧
        countLabel l (movePass ls (train, test)).2 = countLabel l test := by
  intro ls
  induction ls with
  | nil => intro _ train test; exact ⟨rfl, rfl⟩
  | cons m ls ih =>
    intro hnot train test
    have hml : m ≠ l := fun h => hnot (h ▸ List.mem_cons_self m ls)
    have hls : l ∉ ls := fun h => hnot (List.mem_cons_of_mem m h)
    cases hr : removeFirst m train with
    | none => simpa [movePass, hr] using ih hls train test
    | some pr =>
      obtain ⟨train', item⟩ := pr
      obtain ⟨_, hothers⟩ := removeFirst_some_counts hr
      have hitem : item.2 ≠ l := by
        rw [(removeFirst_some hr).1]; exact hml
      have htr : countLabel l train = countLabel l train' := hothers l (fun h => hml h.symm)
      have hte : countLabel l (test ++ [item]) = countLabel l test := by
        rw [countLabel_append, countLabel_cons, countLabel_nil, if_neg hitem]; omega
      obtain ⟨ih1, ih2⟩ := ih hls train' (test ++ [item])
      constructor
      · rw [movePass, hr, ih1, htr]
      · rw [movePass, hr, ih2, hte]

theorem movePass_countLabel_mem {l : Nat} : ∀ (ls : List Nat), ls.Nodup → l ∈ ls →
    ∀ (train test : List (Nat × Nat)),
      countLabel l (movePass ls (train, test)).1
          = countLabel l train - min 1 (countLabel l train) ∧
        countLabel l (movePass ls (train, test)).2
          = countLabel l test + min 1 (countLabel l train) := by
  intro ls
  induction ls with
  | nil => intro _ h; exact absurd h (List.not_mem_nil l)
  | cons m ls ih =>
    intro hnd hl train test
    rcases List.mem_cons.mp hl with hml | hls
    · subst hml
      have hnots : l ∉ ls := (List.nodup_cons.mp hnd).1
      cases hr : removeFirst l train with
      | none =>
        have hc0 : countLabel l train = 0 := removeFirst_none.mp hr
        obtain ⟨h1, h2⟩ := movePass_countLabel_not_mem ls hnots train test
        constructor
        · simpa [movePass, hr, hc0] using h1
        · simpa [movePass, hr, hc0] using h2
      | some pr =>
        obtain ⟨train', item⟩ := pr
        obtain ⟨hcount, _⟩ := removeFirst_some_counts hr
        have hitem : item.2 = l := (removeFirst_some hr).1
        obtain ⟨h1, h2⟩ := movePass_countLabel_not_mem ls hnots train' (test ++ [item])
        have hte : countLabel l (test ++ [item]) = countLabel l test + 1 := by
          rw [countLabel_append, countLabel_cons, countLabel_nil, if_pos hitem]
        constructor
        · rw [movePass, hr]
          rw [h1]
          omega
        · rw [movePass, hr]
          rw [h2, hte]
          omega
    · have hmne : m ≠ l := fun h => (List.nodup_cons.mp hnd).1 (h ▸ hls)
      have hnds : ls.Nodup := (List.nodup_cons.mp hnd).2
      cases hr : removeFirst m train with
      | none => simpa [movePass, hr] using ih hnds hls train test
      | some pr =>
        obtain ⟨train', item⟩ := pr
        obtain ⟨_, hothers⟩ := removeFirst_some_counts hr
        have htr : countLabel l train = countLabel l train' := hothers l (fun h => hmne h.symm)
        have hitem : item.2 ≠ l := by
          rw [(removeFirst_some hr).1]; exact hmne
        have hte : countLabel l (test ++ [item]) = countLabel l test := by
          rw [countLabel_append, countLabel_cons, countLabel_nil, if_neg hitem]; omega
        obtain ⟨ih1, ih2⟩ := ih hnds hls train' (test ++ [item])
        constructor
        · rw [movePass, hr, ih1, htr]
        · rw [movePass, hr, ih2, hte, htr]

theorem movePasses_perm (labels : List Nat) : ∀ (n : Nat) (train test : List (Nat × Nat)),
    ((movePasses labels n (train, test)).1 ++ (movePasses labels n (train, test)).2).Perm
      (train ++ test) := by
  intro n
  induction n with
  | zero => intro train test; exact List.Perm.refl _
  | succ k ih =>
    intro train test
    have hstep := movePass_perm labels train test
    have heta : movePass labels (train, test)
        = ((movePass labels (train, test)).1, (movePass labels (train, test)).2) := rfl
    rw [movePasses, heta]
    exact (ih _ _).trans hstep

theorem movePasses_countLabel_not_mem {l : Nat} {labels : List Nat} (hnot : l ∉ labels) :
    ∀ (n : Nat) (train test : List (Nat × Nat)),
      countLabel l (movePasses labels n (train, test)).1 = countLabel l train ∧
        countLabel l (movePasses labels n (train, test)).2 = countLabel l test := by
  intro n
  induction n with
  | zero => intro train test; exact ⟨rfl, rfl⟩
  | succ k ih =>
    intro train test
    obtain ⟨h1, h2⟩ := movePass_countLabel_not_mem labels hnot train test
    have heta : movePass labels (train, test)
        = ((movePass labels (train, test)).1, (movePass labels (train, test)).2) := rfl
    obtain ⟨ih1, ih2⟩ := ih (movePass labels (train, test)).1 (movePass labels (train, test)).2
    rw [movePasses, heta]
    exact ⟨by rw [ih1, h1], by rw [ih2, h2]⟩

theorem movePasses_countLabel_mem {l : Nat} {labels : List Nat} (hnd : labels.Nodup)
    (hl : l ∈ labels) :
    ∀ (n : Nat) (train test : List (Nat × Nat)),
      countLabel l (movePasses labels n (train, test)).1
          = countLabel l train - min n (countLabel l train) ∧
        countLabel l (movePasses labels n (train, test)).2
          = countLabel l test + min n (countLabel l train) := by
  intro n
  induction n with
  | zero => intro train test; simp [movePasses]
  | succ k ih =>
    intro train test
    obtain ⟨h1, h2⟩ := movePass_countLabel_mem labels hnd hl train test
    have heta : movePass labels (train, test)
        = ((movePass labels (train, test)).1, (movePass labels (train, test)).2) := rfl
    obtain ⟨ih1, ih2⟩ := ih (movePass labels (train, test)).1 (movePass labels (train, test)).2
    rw [movePasses, heta]
    constructor
    · rw [ih1, h1]; omega
    · rw [ih2, h2, h1]; omega

theorem sum_map_const {α : Type} (ls : List α) (c : Nat) :
    (ls.map (fun _ => c)).sum = ls.length * c := by
  induction ls with
  | nil => simp
  | cons x xs ih => simp [ih]; ring

theorem sum_map_lt {α : Type} [DecidableEq α] : ∀ (ls : List α) (f g : α → Nat),
    (∀ l ∈ ls, f l ≤ g l) → ∀ l₀ ∈ ls, f l₀ < g l₀ →
      (ls.map f).sum < (ls.map g).sum := by
  intro ls
  induction ls with
  | nil => intro f g _ l₀ h; exact absurd h (List.not_mem_nil l₀)
  | cons x xs ih =>
    intro f g hle l₀ hmem hlt
    rcases List.mem_cons.mp hmem with hx | hxs
    · subst hx
      have : (xs.map f).sum ≤ (xs.map g).sum :=
        List.sum_le_sum (fun i hi => hle i (List.mem_cons_of_mem _ hi))
      simp only [List.map_cons, List.sum_cons]
      omega
    · have hx : f x ≤ g x := hle x (List.mem_cons_self x xs)
      have := ih f g (fun i hi => hle i (List.mem_cons_of_mem _ hi)) l₀ hxs hlt
      simp only [List.map_cons, List.sum_cons]
      omega

theorem length_eq_sum_counts : ∀ (ls : List Nat), ls.Nodup →
    ∀ L : List (Nat × Nat), (∀ x ∈ L, x.2 ∈ ls) →
      L.length = (ls.map (fun l => countLabel l L)).sum := by
  intro ls
  induction ls with
  | nil =>
    intro _ L hall
    cases L with
    | nil => rfl
    | cons x xs => exact absurd (hall x (List.mem_cons_self x xs)) (List.not_mem_nil x.2)
  | cons l ls ih =>
    intro hnd L hall
    have hnotl : l ∉ ls := (List.nodup_cons.mp hnd).1
    have hnds : ls.Nodup := (List.nodup_cons.mp hnd).2
    have hsplit : L.length
        = countLabel l L + (L.filter (fun x => !(decide (x.2 = l)))).length := by
      rw [← List.countP_eq_length_filter, countLabel]
      have h := List.length_eq_countP_add_countP (fun x : Nat × Nat => decide (x.2 = l)) L
      rw [h]
      congr 1
      refine List.countP_congr ?_
      intro x _
      simp
    have hallf : ∀ x ∈ L.filter (fun x => !(decide (x.2 = l))), x.2 ∈ ls := by
      intro x hx
      obtain ⟨hxL, hxp⟩ := List.mem_filter.mp hx
      have hne : x.2 ≠ l := by
        intro h; rw [h] at hxp; simp at hxp
      rcases List.mem_cons.mp (hall x hxL) with h | h
      · exact absurd h hne
      · exact h
    have hcong : ∀ m ∈ ls, countLabel m (L.filter (fun x => !(decide (x.2 = l)))) = countLabel m L := by
      intro m hm
      have hmne : m ≠ l := fun h => hnotl (h ▸ hm)
      rw [countLabel, countLabel, List.countP_filter]
      refine List.countP_congr ?_
      intro x _
      constructor
      · intro h; exact (Bool.and_eq_true _ _ ▸ h).1
      · intro h
        have hx2 : x.2 = m := of_decide_eq_true h
        have : ¬ (x.2 = l) := fun hc => hmne (hx2 ▸ hc ▸ rfl)
        simp [h, this]
    have := ih hnds (L.filter (fun x => !(decide (x.2 = l)))) hallf
    simp only [List.map_cons, List.sum_cons]
    rw [hsplit, this, List.map_congr_left hcong]

theorem mem_distinctLabels {l : Nat} {samples : List (Nat × Nat)} :
    l ∈ distinctLabels samples ↔ 0 < countLabel l samples := by
  rw [distinctLabels, List.mem_dedup, countLabel_pos_iff]
  constructor
  · intro h
    obtain ⟨x, hx, hxl⟩ := List.mem_map.mp h
    exact ⟨x, hx, hxl⟩
  · intro ⟨x, hx, hxl⟩
    exact List.mem_map.mpr ⟨x, hx, hxl⟩

theorem nodup_distinctLabels (samples : List (Nat × Nat)) : (distinctLabels samples).Nodup :=
  List.nodup_dedup _

theorem final_state_spec (samples : List (Nat × Nat)) (shots : Nat) :
    (∀ l ∈ distinctLabels samples,
        countLabel l (movePasses (distinctLabels samples) shots (samples, [])).2
          = min shots (countLabel l samples)) ∧
      (movePasses (distinctLabels samples) shots (samples, [])).2.length
        = ((distinctLabels samples).map (fun l => min shots (countLabel l samples))).sum := by
  have hnd := nodup_distinctLabels samples
  have hmem : ∀ l ∈ distinctLabels samples,
      countLabel l (movePasses (distinctLabels samples) shots (samples, [])).2
        = min shots (countLabel l samples) := by
    intro l hl
    have := (movePasses_countLabel_mem hnd hl shots samples []).2
    simpa [countLabel_nil] using this
  refine ⟨hmem, ?_⟩
  have hall : ∀ x ∈ (movePasses (distinctLabels samples) shots (samples, [])).2,
      x.2 ∈ distinctLabels samples := by
    intro x hx
    by_contra hnot
    have := (movePasses_countLabel_not_mem hnot shots samples []).2
    rw [countLabel_nil] at this
    have hpos : 0 < countLabel x.2 (movePasses (distinctLabels samples) shots (samples, [])).2 :=
      countLabel_pos_iff.mpr ⟨x, hx, rfl⟩
    omega
  rw [length_eq_sum_counts (distinctLabels samples) hnd _ hall]
  exact congrArg List.sum (List.map_congr_left hmem)

theorem splitTrainTest_err_iff (samples : List (Nat × Nat)) (shots : Nat) :
    (splitTrainTest samples shots).isOk = false ↔
      ∃ l ∈ distinctLabels samples, countLabel l samples < shots := by
  obtain ⟨hcounts, hlen⟩ := final_state_spec samples shots
  have hkey : (splitTrainTest samples shots).isOk = false ↔
      (movePasses (distinctLabels samples) shots (samples, [])).2.length
        < (distinctLabels samples).length * shots := by
    rw [splitTrainTest]
    by_cases hc : (movePasses (distinctLabels samples) shots (samples, [])).2.length
        < (distinctLabels samples).length * shots
    · simp [hc, Except.isOk, Except.toBool]
    · simp [hc, Except.isOk, Except.toBool]
  rw [hkey, hlen, ← sum_map_const (distinctLabels samples) shots]
  constructor
  · intro hlt
    by_contra hnot
    push_neg at hnot
    have : ((distinctLabels samples).map (fun l => min shots (countLabel l samples))).sum
        = ((distinctLabels samples).map (fun _ => shots)).sum := by
      refine congrArg List.sum (List.map_congr_left ?_)
      intro l hl
      have := hnot l hl
      omega
    omega
  · intro ⟨l₀, hl₀, hlt⟩
    refine sum_map_lt (distinctLabels samples) _ _ (fun l _ => min_le_left _ _) l₀ hl₀ ?_
    omega

theorem splitTrainTest_ok {samples : List (Nat × Nat)} {shots : Nat}
    {train test : List (Nat × Nat)}
    (h : splitTrainTest samples shots = .ok (train, test)) :
    (∀ l ∈ distinctLabels samples, countLabel l test = shots) ∧
      (train ++ test).Perm samples ∧
      test.length = (distinctLabels samples).length * shots := by
  obtain ⟨hcounts, hlen⟩ := final_state_spec samples shots
  have hsplit : ¬ ((movePasses (distinctLabels samples) shots (samples, [])).2.length
        < (distinctLabels samples).length * shots) ∧
      (train, test) = movePasses (distinctLabels samples) shots (samples, []) := by
    rw [splitTrainTest] at h
    by_cases hc : (movePasses (distinctLabels samples) shots (samples, [])).2.length
        < (distinctLabels samples).length * shots
    · rw [if_pos hc] at h; exact Except.noConfusion h
    · rw [if_neg hc] at h
      exact ⟨hc, (Except.ok.injEq _ _ ▸ h).symm⟩
  obtain ⟨hge, hst⟩ := hsplit
  have htest : test = (movePasses (distinctLabels samples) shots (samples, [])).2 :=
    congrArg Prod.snd hst
  have htrain : train = (movePasses (distinctLabels samples) shots (samples, [])).1 :=
    congrArg Prod.fst hst
  have hminall : ∀ l ∈ distinctLabels samples, min shots (countLabel l samples) = shots := by
    by_contra hnot
    push_neg at hnot
    obtain ⟨l₀, hl₀, hne⟩ := hnot
    have hlt : min shots (countLabel l₀ samples) < shots := by
      have := min_le_left shots (countLabel l₀ samples)
      omega
    have := sum_map_lt (distinctLabels samples) _ _
      (fun l _ => min_le_left shots (countLabel l samples)) l₀ hl₀ hlt
    rw [sum_map_const] at this
    omega
  refine ⟨?_, ?_, ?_⟩
  · intro l hl
    rw [htest, hcounts l hl, hminall l hl]
  · rw [htest, htrain]
    simpa using movePasses_perm (distinctLabels samples) shots samples []
  · rw [htest, hlen, ← sum_map_const (distinctLabels samples) shots]
    exact congrArg List.sum (List.map_congr_left hminall)

/-- C2: for every list of (input, label) pairs and every `test_shots ≥ 0`,
`_split_train_test` raises `IndexError` if and only if some label
occurring in the list has fewer than `test_shots` occurrences; otherwise
it returns `(train, test)` where `test` contains exactly `test_shots`
pairs for each distinct label and `train ++ test` is a permutation of the
input list. -/
theorem splitTrainTest_spec (samples : List (Nat × Nat)) (test_shots : Nat) :
    ((splitTrainTest samples test_shots).isOk = false ↔
        ∃ l ∈ distinctLabels samples, countLabel l samples < test_shots) ∧
      ∀ train test, splitTrainTest samples test_shots = .ok (train, test) →
        (∀ l ∈ distinctLabels samples, countLabel l test = test_shots) ∧
          (train ++ test).Perm samples :=
  ⟨splitTrainTest_err_iff samples test_shots,
   fun _ _ h => ⟨(splitTrainTest_ok h).1, (splitTrainTest_ok h).2.1⟩⟩

/-- Witness for `splitTrainTest_spec` at a concrete four-element input. -/
theorem splitTrainTest_spec_witness :
    (splitTrainTest [(10, 0), (20, 0), (30, 1), (40, 1)] 1).isOk = true ∧
      (∀ l ∈ distinctLabels [(10, 0), (20, 0), (30, 1), (40, 1)],
          countLabel l [(10, 0), (30, 1)] = 1) ∧
      ([(20, 0), (40, 1)] ++ [(10, 0), (30, 1)]).Perm [(10, 0), (20, 0), (30, 1), (40, 1)] := by
  have h := splitTrainTest_spec [(10, 0), (20, 0), (30, 1), (40, 1)] 1
  have h2 := h.2 [(20, 0), (40, 1)] [(10, 0), (30, 1)] rfl
  refine ⟨by decide, h2.1, h2.2⟩

/-! ## Row-major indexing of uniform-block `flatMap` (for
`generate_configuration` and `augment_dataset`) -/

theorem flatMap_uniform_getElem {α β : Type} (f : α → List β) (k : Nat)
    (hk : ∀ x, (f x).length = k) :
    ∀ (A : List α) (i j : Nat) (x : α), A[i]? = some x → j < k →
      (A.flatMap f)[i * k + j]? = (f x)[j]? := by
  intro A
  induction A with
  | nil => intro i j x h _; simp at h
  | cons a A ih =>
    intro i j x h hj
    cases i with
    | zero =>
      simp only [List.getElem?_cons_zero, Option.some.injEq] at h
      subst h
      simp only [List.flatMap_cons, Nat.zero_mul, Nat.zero_add]
      rw [List.getElem?_append_left (by rw [hk]; exact hj)]
    | succ i =>
      simp only [List.getElem?_cons_succ] at h
      simp only [List.flatMap_cons]
      rw [List.getElem?_append_right (by rw [hk]; nlinarith)]
      rw [hk]
      have harith : (i + 1) * k + j - k = i * k + j := by
        have : (i + 1) * k = i * k + k := by ring
        omega
      rw [harith]
      exact ih i j x h hj

theorem length_flatMap_uniform {α β : Type} (f : α → List β) (k : Nat)
    (hk : ∀ x, (f x).length = k) (A : List α) :
    (A.flatMap f).length = A.length * k := by
  rw [List.length_flatMap]
  have : A.map (List.length ∘ f) = A.map (fun _ => k) :=
    List.map_congr_left (fun a _ => hk a)
  rw [this, sum_map_const]

/-- C6: `generate_configuration(A, B)` yields exactly the pairs of the
Cartesian product `A × B` in row-major order — all of `B` paired with
`A`'s first element, then with its second, and so on — for a total of
`len(A) * len(B)` pairs. -/
theorem generate_configuration_spec {α β : Type} (A : List α) (B : List β) :
    (generate_configuration A B).length = A.length * B.length ∧
      ∀ i j a b, A[i]? = some a → B[j]? = some b →
        (generate_configuration A B)[i * B.length + j]? = some (a, b) := by
  constructor
  · exact length_flatMap_uniform _ B.length (fun a => List.length_map B _) A
  · intro i j a b ha hb
    have hj : j < B.length := by
      rcases List.getElem?_eq_some_iff.mp hb with ⟨h, _⟩
      exact h
    rw [generate_configuration,
      flatMap_uniform_getElem _ B.length (fun a => List.length_map B _) A i j a ha hj,
      List.getElem?_map, hb]
    rfl

/-- Witness for `generate_configuration_spec` on concrete two- and
three-element lists. -/
theorem generate_configuration_spec_witness :
    (generate_configuration [5, 6] [7, 8, 9]).length = 2 * 3 ∧
      (generate_configuration [5, 6] [7, 8, 9])[1 * 3 + 2]? = some (6, 9) := by
  have h := generate_configuration_spec [5, 6] [7, 8, 9]
  exact ⟨h.1, h.2 1 2 6 9 rfl rfl⟩

/-- C8: `augment_dataset` yields, for the `i`-th input character and in
input order, four characters at offsets `4 i + j` (`j < 4`), carrying its
`dir_path` and the rotations 0, 90, 180, 270 in that order; the output
length is four times the input length. -/
theorem augment_dataset_spec (dataset : List Character) :
    (augment_dataset dataset).length = 4 * dataset.length ∧
      ∀ i c j r, dataset[i]? = some c → [0, 90, 180, 270][j]? = some r →
        (augment_dataset dataset)[4 * i + j]? = some (Character.mk c.dir_path r) := by
  constructor
  · rw [augment_dataset,
      length_flatMap_uniform _ 4 (fun c => by simp) dataset]
    ring
  · intro i c j r hc hr
    have hj : j < 4 := by
      rcases List.getElem?_eq_some_iff.mp hr with ⟨h, _⟩
      simpa using h
    rw [augment_dataset, Nat.mul_comm 4 i,
      flatMap_uniform_getElem _ 4 (fun c => by simp) dataset i j c hc hj,
      List.getElem?_map, hr]
    rfl

/-- Witness for `augment_dataset_spec` at a concrete two-character
dataset. -/
theorem augment_dataset_spec_witness :
    (augment_dataset [Character.mk "a" 0, Character.mk "b" 0]).length = 4 * 2 ∧
      (augment_dataset [Character.mk "a" 0, Character.mk "b" 0])[4 * 1 + 2]?
        = some (Character.mk "b" 180) := by
  have h := augment_dataset_spec [Character.mk "a" 0, Character.mk "b" 0]
  exact ⟨h.1, h.2 1 (Character.mk "b" 0) 2 180 rfl rfl⟩

/-! ## Lemmas about `_sample_mini_dataset` and `_make_omniglot_dataset` -/

theorem map_eq_replicate_of_forall {α β : Type} : ∀ (L : List α) (f : α → β) (c : β),
    (∀ x ∈ L, f x = c) → L.map f = List.replicate L.length c := by
  intro L f c
  induction L with
  | nil => intro _; rfl
  | cons x xs ih =>
    intro h
    simp only [List.map_cons, List.length_cons, List.replicate_succ]
    rw [h x (List.mem_cons_self x xs), ih (fun y hy => h y (List.mem_cons_of_mem x hy))]

theorem sampleMiniDataset_length {fs : String → List Nat}
    {shufD : List Character → List Character} {shufN : Nat → List Nat → List Nat}
    {dataset : List Character} {nc shots : Nat}
    (hsample : ∀ p ∈ ((shufD dataset).take nc).enum,
        (Character.sample fs (shufN p.1) p.2 shots).length = shots) :
    (sampleMiniDataset fs shufD shufN dataset nc shots).length
      = ((shufD dataset).take nc).length * shots := by
  rw [sampleMiniDataset, List.length_flatMap]
  have hcong : (((shufD dataset).take nc).enum).map
      (List.length ∘ (fun p =>
        (Character.sample fs (shufN p.1) p.2 shots).map (fun s => (s, p.1))))
      = (((shufD dataset).take nc).enum).map (fun _ => shots) := by
    refine List.map_congr_left ?_
    intro p hp
    simp [List.length_map, hsample p hp]
  rw [hcong, sum_map_const, List.enum_length]

theorem sum_enumFrom_indicator {γ : Type} (shots l : Nat) :
    ∀ (cs : List γ) (k : Nat),
      ((List.enumFrom k cs).map (fun p => if p.1 = l then shots else 0)).sum
        = if k ≤ l ∧ l < k + cs.length then shots else 0 := by
  intro cs
  induction cs with
  | nil =>
    intro k
    simp only [List.enumFrom_nil, List.map_nil, List.sum_nil, List.length_nil]
    split_ifs with h
    · omega
    · rfl
  | cons c cs ih =>
    intro k
    rw [List.enumFrom_cons]
    simp only [List.map_cons, List.sum_cons, ih (k + 1), List.length_cons]
    by_cases h1 : k = l
    · subst h1
      have h2 : ¬ (k + 1 ≤ k ∧ k < k + 1 + cs.length) := by omega
      have h3 : k ≤ k ∧ k < k + (cs.length + 1) := by omega
      rw [if_pos rfl, if_neg h2, if_pos h3]
      omega
    · rw [if_neg h1]
      by_cases h2 : k + 1 ≤ l ∧ l < k + 1 + cs.length
      · have h3 : k ≤ l ∧ l < k + (cs.length + 1) := by omega
        rw [if_pos h2, if_pos h3]
        omega
      · have h3 : ¬ (k ≤ l ∧ l < k + (cs.length + 1)) := by omega
        rw [if_neg h2, if_neg h3]

theorem countLabel_sampleMiniDataset {fs : String → List Nat}
    {shufD : List Character → List Character} {shufN : Nat → List Nat → List Nat}
    {dataset : List Character} {nc shots : Nat}
    (hsample : ∀ p ∈ ((shufD dataset).take nc).enum,
        (Character.sample fs (shufN p.1) p.2 shots).length = shots) (l : Nat) :
    countLabel l (sampleMiniDataset fs shufD shufN dataset nc shots)
      = if l < ((shufD dataset).take nc).length then shots else 0 := by
  rw [sampleMiniDataset, countLabel, List.countP_flatMap]
  have hcong : (((shufD dataset).take nc).enum).map
      ((List.countP fun x => decide (x.2 = l)) ∘ (fun p =>
        (Character.sample fs (shufN p.1) p.2 shots).map (fun s => (s, p.1))))
      = (((shufD dataset).take nc).enum).map (fun p => if p.1 = l then shots else 0) := by
    refine List.map_congr_left ?_
    intro p hp
    simp only [Function.comp_apply, List.countP_map]
    by_cases hpl : p.1 = l
    · have : ((fun x : Nat × Nat => decide (x.2 = l)) ∘ (fun s => (s, p.1)))
          = fun _ => true := by
        funext s; simp [hpl]
      rw [this, List.countP_true, hsample p hp, if_pos hpl]
    · have : ((fun x : Nat × Nat => decide (x.2 = l)) ∘ (fun s => (s, p.1)))
          = fun _ => false := by
        funext s; simp [hpl]
      rw [this, List.countP_false, if_neg hpl]
      rfl
  rw [hcong]
  have henum : ((shufD dataset).take nc).enum
      = List.enumFrom 0 ((shufD dataset).take nc) := rfl
  rw [henum, sum_enumFrom_indicator]
  by_cases h : l < ((shufD dataset).take nc).length
  · rw [if_pos (by omega : 0 ≤ l ∧ l < 0 + ((shufD dataset).take nc).length), if_pos h]
  · rw [if_neg (by omega : ¬ (0 ≤ l ∧ l < 0 + ((shufD dataset).take nc).length)), if_neg h]

theorem distinctLabels_sampleMiniDataset {fs : String → List Nat}
    {shufD : List Character → List Character} {shufN : Nat → List Nat → List Nat}
    {dataset : List Character} {nc shots : Nat}
    (hsample : ∀ p ∈ ((shufD dataset).take nc).enum,
        (Character.sample fs (shufN p.1) p.2 shots).length = shots)
    (hpos : 0 < shots) :
    (distinctLabels (sampleMiniDataset fs shufD shufN dataset nc shots)).length
      = ((shufD dataset).take nc).length := by
  have hmem : ∀ l, l ∈ distinctLabels (sampleMiniDataset fs shufD shufN dataset nc shots)
      ↔ l < ((shufD dataset).take nc).length := by
    intro l
    rw [mem_distinctLabels, countLabel_sampleMiniDataset hsample l]
    by_cases h : l < ((shufD dataset).take nc).length
    · rw [if_pos h]; exact iff_of_true hpos h
    · rw [if_neg h]; exact iff_of_false (by omega) h
  have hperm : (distinctLabels (sampleMiniDataset fs shufD shufN dataset nc shots)).Perm
      (List.range ((shufD dataset).take nc).length) :=
    (List.perm_ext_iff_of_nodup (nodup_distinctLabels _)
      (List.nodup_range _)).mpr (fun a => by rw [hmem a, List.mem_range])
  rw [hperm.length_eq, List.length_range]

theorem makeClientSplit_spec {fs : String → List Nat}
    {shufD : Nat → List Character → List Character}
    {shufN : Nat → Nat → List Nat → List Nat}
    {dataset : List Character} {nc s i : Nat}
    (hlen : nc ≤ (shufD i dataset).length)
    (hsample : ∀ p ∈ ((shufD i dataset).take nc).enum,
        (Character.sample fs (shufN i p.1) p.2 (s + 1)).length = s + 1) :
    ∃ train test, makeClientSplit fs shufD shufN dataset nc s i = .ok (train, test) ∧
      train.length = nc * s ∧ test.length = nc := by
  have htake : ((shufD i dataset).take nc).length = nc := by
    rw [List.length_take]; omega
  have hXlen : (sampleMiniDataset fs (shufD i) (shufN i) dataset nc (s + 1)).length
      = nc * (s + 1) := by
    rw [sampleMiniDataset_length hsample, htake]
  have hlabels :
      (distinctLabels (sampleMiniDataset fs (shufD i) (shufN i) dataset nc (s + 1))).length
        = nc := by
    rw [distinctLabels_sampleMiniDataset hsample (by omega), htake]
  have hok : (splitTrainTest
      (sampleMiniDataset fs (shufD i) (shufN i) dataset nc (s + 1)) 1).isOk = true := by
    by_contra h
    have hfalse : (splitTrainTest
        (sampleMiniDataset fs (shufD i) (shufN i) dataset nc (s + 1)) 1).isOk = false := by
      cases hb : (splitTrainTest
          (sampleMiniDataset fs (shufD i) (shufN i) dataset nc (s + 1)) 1).isOk
      · rfl
      · exact absurd hb h
    obtain ⟨l, hl, hlt⟩ := (splitTrainTest_err_iff _ 1).mp hfalse
    have := mem_distinctLabels.mp hl
    omega
  obtain ⟨⟨train, test⟩, heq⟩ : ∃ p, splitTrainTest
      (sampleMiniDataset fs (shufD i) (shufN i) dataset nc (s + 1)) 1 = .ok p := by
    cases hres : splitTrainTest
        (sampleMiniDataset fs (shufD i) (shufN i) dataset nc (s + 1)) 1 with
    | error e => rw [hres] at hok; exact absurd hok (by simp [Except.isOk, Except.toBool])
    | ok p => exact ⟨p, rfl⟩
  obtain ⟨hcounts, hperm, htestlen⟩ := splitTrainTest_ok heq
  have htest : test.length = nc := by rw [htestlen, hlabels, Nat.mul_one]
  refine ⟨train, test, heq, ?_, htest⟩
  have hlensum := hperm.length_eq
  rw [List.length_append, hXlen] at hlensum
  have hexpand : nc * (s + 1) = nc * s + nc := by ring
  omega

theorem makeOmniglotSplits_spec {fs : String → List Nat}
    {shufD : Nat → List Character → List Character}
    {shufN : Nat → Nat → List Nat → List Nat}
    {dataset : List Character} {nc s : Nat}
    (hall : ∀ i : Nat, nc ≤ (shufD i dataset).length ∧
        ∀ p ∈ ((shufD i dataset).take nc).enum,
          (Character.sample fs (shufN i p.1) p.2 (s + 1)).length = s + 1) :
    ∀ idxs : List Nat, ∃ splits,
      makeOmniglotSplits fs shufD shufN dataset nc s idxs = .ok splits ∧
        splits.length = idxs.length ∧
        ∀ sp ∈ splits, sp.1.length = nc * s ∧ sp.2.length = nc := by
  intro idxs
  induction idxs with
  | nil => exact ⟨[], rfl, rfl, fun sp h => absurd h (List.not_mem_nil sp)⟩
  | cons i rest ih =>
    obtain ⟨train, test, heq, htr, hte⟩ := makeClientSplit_spec (hall i).1 (hall i).2
    obtain ⟨splits, hseq, hslen, hsall⟩ := ih
    refine ⟨(train, test) :: splits, ?_, ?_, ?_⟩
    · rw [makeOmniglotSplits, heq, hseq]
    · simp [hslen]
    · intro sp hsp
      rcases List.mem_cons.mp hsp with h | h
      · subst h; exact ⟨htr, hte⟩
      · exact hsall sp h

/-- C7 (amended: additionally requires the character dataset to hold at
least `num_classes_per_client` classes — with fewer classes each client
samples fewer labels and the counts drop below the claimed values): under
the precondition that every sampled character class yields
`num_shots_per_class + 1` images, `_make_omniglot_dataset` gives every
client `num_classes_per_client * num_shots_per_class` training pairs and
`num_classes_per_client` test pairs, their sum as the local total, and
global train/test totals of `num_clients` times the per-client counts. -/
theorem makeOmniglotDataset_spec (fs : String → List Nat)
    (shufD : Nat → List Character → List Character)
    (shufN : Nat → Nat → List Nat → List Nat)
    (dataset : List Character)
    (num_clients num_classes_per_client num_shots_per_class : Nat) (ibs : Int)
    (hperm : ∀ i, (shufD i dataset).Perm dataset)
    (hnc : num_classes_per_client ≤ dataset.length)
    (hsample : ∀ i : Nat, ∀ p ∈ ((shufD i dataset).take num_classes_per_client).enum,
        (Character.sample fs (shufN i p.1) p.2 (num_shots_per_class + 1)).length
          = num_shots_per_class + 1) :
    ∃ d, makeOmniglotDataset fs shufD shufN dataset num_clients
        num_classes_per_client num_shots_per_class ibs = .ok d ∧
      d.data_local_train_num_dict
          = List.replicate num_clients (num_classes_per_client * num_shots_per_class) ∧
      d.data_local_test_num_dict = List.replicate num_clients num_classes_per_client ∧
      d.data_local_num_dict = List.replicate num_clients
          (num_classes_per_client * num_shots_per_class + num_classes_per_client) ∧
      d.train_data_num = num_clients * (num_classes_per_client * num_shots_per_class) ∧
      d.test_data_num = num_clients * num_classes_per_client := by
  have hall : ∀ i : Nat, num_classes_per_client ≤ (shufD i dataset).length ∧
      ∀ p ∈ ((shufD i dataset).take num_classes_per_client).enum,
        (Character.sample fs (shufN i p.1) p.2 (num_shots_per_class + 1)).length
          = num_shots_per_class + 1 :=
    fun i => ⟨by rw [(hperm i).length_eq]; exact hnc, hsample i⟩
  obtain ⟨splits, hseq, hslen, hsall⟩ := makeOmniglotSplits_spec hall (List.range num_clients)
  have hn : splits.length = num_clients := by rw [hslen, List.length_range]
  have htr : splits.map (fun sp => sp.1.length)
      = List.replicate num_clients (num_classes_per_client * num_shots_per_class) := by
    rw [map_eq_replicate_of_forall splits _ _ (fun sp h => (hsall sp h).1), hn]
  have hte : splits.map (fun sp => sp.2.length)
      = List.replicate num_clients num_classes_per_client := by
    rw [map_eq_replicate_of_forall splits _ _ (fun sp h => (hsall sp h).2), hn]
  have hloc : splits.map (fun sp => sp.1.length + sp.2.length)
      = List.replicate num_clients
          (num_classes_per_client * num_shots_per_class + num_classes_per_client) := by
    rw [map_eq_replicate_of_forall splits _ _
      (fun sp h => by rw [(hsall sp h).1, (hsall sp h).2]), hn]
  refine ⟨{ client_num := num_clients
            train_data_num := (splits.map (fun sp => sp.1.length)).sum
            test_data_num := (splits.map (fun sp => sp.2.length)).sum
            data_local_num_dict := splits.map (fun sp => sp.1.length + sp.2.length)
            data_local_train_num_dict := splits.map (fun sp => sp.1.length)
            data_local_test_num_dict := splits.map (fun sp => sp.2.length)
            train_data_local_dict := splits.map (fun sp =>
              ⟨sp.1, if ibs = -1 then (sp.1.length : Int) else ibs, true⟩)
            test_data_local_dict := splits.map (fun sp =>
              ⟨sp.2, if ibs = -1 then (sp.2.length : Int) else ibs, true⟩) },
    ?_, htr, hte, hloc, ?_, ?_⟩
  · simp only [makeOmniglotDataset, hseq]
  · show (splits.map (fun sp => sp.1.length)).sum = _
    rw [htr, List.sum_replicate, smul_eq_mul]
  · show (splits.map (fun sp => sp.2.length)).sum = _
    rw [hte, List.sum_replicate, smul_eq_mul]

/-- C7 counterexample: on an empty character dataset (with one client,
one class per client and one shot per class) the stated precondition
holds vacuously — there is no sampled class — yet the per-client training
count is 0 rather than `num_classes_per_client * num_shots_per_class = 1`.
So the claim fails without a lower bound on the dataset size. -/
theorem makeOmniglotDataset_counterexample :
    (∀ i : Nat, (((fun (_ : Nat) (l : List Character) => l) i
        ([] : List Character))).Perm ([] : List Character)) ∧
      (∀ i : Nat, ∀ p ∈ (((fun (_ : Nat) (l : List Character) => l) i
          ([] : List Character)).take 1).enum,
        (Character.sample (fun _ => [7, 8])
          ((fun (_ _ : Nat) (l : List Nat) => l) i p.1) p.2 (1 + 1)).length = 1 + 1) ∧
      (makeOmniglotDataset (fun _ => [7, 8]) (fun _ l => l) (fun _ _ l => l)
          ([] : List Character) 1 1 1 5).toOption.map
            (fun d => d.data_local_train_num_dict) = some [0] ∧
      ([0] : List Nat) ≠ List.replicate 1 (1 * 1) := by
  refine ⟨fun i => List.Perm.refl _, ?_, by rfl, by decide⟩
  intro i p hp
  simp at hp

/-- Witness for `makeOmniglotDataset_spec`: one client, one class holding
two images, one shot per class. -/
theorem makeOmniglotDataset_spec_witness :
    (∀ i : Nat, ((fun (_ : Nat) (l : List Character) => l) i
        [Character.mk "a" 0]).Perm [Character.mk "a" 0]) ∧
      (1 : Nat) ≤ ([Character.mk "a" 0] : List Character).length ∧
      ∃ d, makeOmniglotDataset (fun _ => [7, 8]) (fun _ l => l) (fun _ _ l => l)
          [Character.mk "a" 0] 1 1 1 5 = .ok d ∧
        d.data_local_train_num_dict = List.replicate 1 (1 * 1) ∧
        d.data_local_test_num_dict = List.replicate 1 1 ∧
        d.data_local_num_dict = List.replicate 1 (1 * 1 + 1) ∧
        d.train_data_num = 1 * (1 * 1) ∧
        d.test_data_num = 1 * 1 := by
  refine ⟨fun i => List.Perm.refl _, by decide, ?_⟩
  refine makeOmniglotDataset_spec (fun _ => [7, 8]) (fun _ l => l) (fun _ _ l => l)
    [Character.mk "a" 0] 1 1 1 5 (fun i => List.Perm.refl _) (by decide) ?_
  intro i p hp
  have henum : (([Character.mk "a" 0] : List Character).take 1).enum
      = [(0, Character.mk "a" 0)] := rfl
  rw [henum] at hp
  rw [List.mem_singleton.mp hp]
  rfl

/-! ## Lemmas about `load_mnist_dataset` -/

theorem validPicks_sound : ∀ (picks : List (Nat × Nat)) (pool : List Nat),
    validPicks picks pool = true → pool.Nodup →
      (∀ p ∈ picks, p.1 ∈ pool ∧ p.2 ∈ pool ∧ p.1 ≠ p.2) ∧
        picks.Pairwise (fun p q => p.1 ≠ q.1 ∧ p.1 ≠ q.2 ∧ p.2 ≠ q.1 ∧ p.2 ≠ q.2) := by
  intro picks
  induction picks with
  | nil => intro pool _ _; exact ⟨fun p h => absurd h (List.not_mem_nil p), List.Pairwise.nil⟩
  | cons p rest ih =>
    intro pool hv hnd
    rw [validPicks] at hv
    have h1 : p.1 ∈ pool := of_decide_eq_true (by
      rcases Bool.and_eq_true _ _ ▸ hv with ⟨h, _⟩
      rcases Bool.and_eq_true _ _ ▸ h with ⟨h', _⟩
      rcases Bool.and_eq_true _ _ ▸ h' with ⟨h'', _⟩
      exact h'')
    have h2 : p.2 ∈ pool := of_decide_eq_true (by
      rcases Bool.and_eq_true _ _ ▸ hv with ⟨h, _⟩
      rcases Bool.and_eq_true _ _ ▸ h with ⟨h', _⟩
      rcases Bool.and_eq_true _ _ ▸ h' with ⟨_, h''⟩
      exact h'')
    have h3 : p.1 ≠ p.2 := of_decide_eq_true (by
      rcases Bool.and_eq_true _ _ ▸ hv with ⟨h, _⟩
      rcases Bool.and_eq_true _ _ ▸ h with ⟨_, h'⟩
      exact h')
    have h4 : validPicks rest
        (pool.filter (fun x => decide (x ≠ p.1) && decide (x ≠ p.2))) = true := by
      rcases Bool.and_eq_true _ _ ▸ hv with ⟨_, h⟩
      exact h
    have hndf : (pool.filter (fun x => decide (x ≠ p.1) && decide (x ≠ p.2))).Nodup :=
      hnd.filter _
    obtain ⟨hmem, hpw⟩ := ih _ h4 hndf
    have hmem' : ∀ q ∈ rest, q.1 ∈ pool ∧ q.2 ∈ pool ∧ q.1 ≠ q.2 := by
      intro q hq
      obtain ⟨hq1, hq2, hq3⟩ := hmem q hq
      exact ⟨(List.mem_filter.mp hq1).1, (List.mem_filter.mp hq2).1, hq3⟩
    refine ⟨?_, ?_⟩
    · intro q hq
      rcases List.mem_cons.mp hq with h | h
      · subst h; exact ⟨h1, h2, h3⟩
      · exact hmem' q h
    · refine List.Pairwise.cons ?_ hpw
      intro q hq
      obtain ⟨hq1, hq2, _⟩ := hmem q hq
      have hq1f := (List.mem_filter.mp hq1).2
      have hq2f := (List.mem_filter.mp hq2).2
      rcases Bool.and_eq_true _ _ ▸ hq1f with ⟨ha1, ha2⟩
      rcases Bool.and_eq_true _ _ ▸ hq2f with ⟨hb1, hb2⟩
      have hne1 : q.1 ≠ p.1 := of_decide_eq_true ha1
      have hne2 : q.1 ≠ p.2 := of_decide_eq_true ha2
      have hne3 : q.2 ≠ p.1 := of_decide_eq_true hb1
      have hne4 : q.2 ≠ p.2 := of_decide_eq_true hb2
      exact ⟨fun h => hne1 h.symm, fun h => hne3 h.symm,
        fun h => hne2 h.symm, fun h => hne4 h.symm⟩

theorem exists_validPicks : ∀ (n : Nat) (pool : List Nat), pool.Nodup →
    2 * n ≤ pool.length → ∃ picks, picks.length = n ∧ validPicks picks pool = true := by
  intro n
  induction n with
  | zero => intro pool _ _; exact ⟨[], rfl, rfl⟩
  | succ m ih =>
    intro pool hnd hlen
    match pool, hnd, hlen with
    | a :: b :: rest, hnd, hlen =>
      have hab : a ≠ b := by
        intro h
        exact (List.nodup_cons.mp hnd).1 (h ▸ List.mem_cons_self b rest)
      have hanin : a ∉ rest := fun h =>
        (List.nodup_cons.mp hnd).1 (List.mem_cons_of_mem b h)
      have hbnin : b ∉ rest := (List.nodup_cons.mp (List.nodup_cons.mp hnd).2).1
      have hrest : rest.Nodup := (List.nodup_cons.mp (List.nodup_cons.mp hnd).2).2
      have hfilter : (a :: b :: rest).filter
          (fun x => decide (x ≠ a) && decide (x ≠ b)) = rest := by
        rw [List.filter_cons_of_neg (by simp), List.filter_cons_of_neg (by simp [hab])]
        exact List.filter_eq_self.mpr (fun x hx => by
          have hxa : x ≠ a := fun h => hanin (h ▸ hx)
          have hxb : x ≠ b := fun h => hbnin (h ▸ hx)
          simp [hxa, hxb])
      have hrlen : 2 * m ≤ rest.length := by
        simp only [List.length_cons] at hlen
        omega
      obtain ⟨picks, hplen, hpv⟩ := ih rest hrest hrlen
      refine ⟨(a, b) :: picks, by simp [hplen], ?_⟩
      rw [validPicks]
      have hma : ((a, b) : Nat × Nat).1 ∈ a :: b :: rest := List.mem_cons_self a _
      have hmb : ((a, b) : Nat × Nat).2 ∈ a :: b :: rest :=
        List.mem_cons_of_mem a (List.mem_cons_self b rest)
      rw [decide_eq_true hma, decide_eq_true hmb, decide_eq_true (hab : (a, b).1 ≠ (a, b).2)]
      show validPicks picks
        ((a :: b :: rest).filter (fun x => decide (x ≠ a) && decide (x ≠ b))) = true
      rw [hfilter]
      exact hpv

theorem clientPartition_length (sortedIdxs : Nat → Nat) (p : Nat × Nat) :
    (clientPartition sortedIdxs p).length = 600 := by
  simp [clientPartition]

theorem mem_clientPartition {sortedIdxs : Nat → Nat} {p : Nat × Nat} {a : Nat} :
    a ∈ clientPartition sortedIdxs p ↔
      (∃ k, k < 300 ∧ sortedIdxs (p.1 * 300 + k) = a) ∨
        (∃ k, k < 300 ∧ sortedIdxs (p.2 * 300 + k) = a) := by
  simp [clientPartition, List.mem_append, List.mem_map, List.mem_range]

theorem clientPartition_nodup {sortedIdxs : Nat → Nat}
    (hinj : ∀ a b, a < 60000 → b < 60000 → sortedIdxs a = sortedIdxs b → a = b)
    {p : Nat × Nat} (h1 : p.1 < 200) (h2 : p.2 < 200) (hne : p.1 ≠ p.2) :
    (clientPartition sortedIdxs p).Nodup := by
  have hhalf : ∀ s, s < 200 →
      ((List.range 300).map (fun k => sortedIdxs (s * 300 + k))).Nodup := by
    intro s hs
    refine List.Nodup.map_on ?_ (List.nodup_range 300)
    intro x hx y hy hxy
    rw [List.mem_range] at hx hy
    have := hinj (s * 300 + x) (s * 300 + y) (by omega) (by omega) hxy
    omega
  refine List.Nodup.append (hhalf p.1 h1) (hhalf p.2 h2) ?_
  rw [List.disjoint_left]
  intro a ha hb
  obtain ⟨x, hx, hxa⟩ := List.mem_map.mp ha
  obtain ⟨y, hy, hya⟩ := List.mem_map.mp hb
  rw [List.mem_range] at hx hy
  have := hinj (p.1 * 300 + x) (p.2 * 300 + y) (by omega) (by omega) (by rw [hxa, hya])
  omega

theorem clientPartition_disjoint {sortedIdxs : Nat → Nat}
    (hinj : ∀ a b, a < 60000 → b < 60000 → sortedIdxs a = sortedIdxs b → a = b)
    {p q : Nat × Nat} (hp1 : p.1 < 200) (hp2 : p.2 < 200) (hq1 : q.1 < 200) (hq2 : q.2 < 200)
    (h : p.1 ≠ q.1 ∧ p.1 ≠ q.2 ∧ p.2 ≠ q.1 ∧ p.2 ≠ q.2) :
    (clientPartition sortedIdxs p).Disjoint (clientPartition sortedIdxs q) := by
  rw [List.disjoint_left]
  intro a ha hb
  rcases mem_clientPartition.mp ha with ⟨x, hx, hxa⟩ | ⟨x, hx, hxa⟩ <;>
    rcases mem_clientPartition.mp hb with ⟨y, hy, hya⟩ | ⟨y, hy, hya⟩ <;>
    [skip; skip; skip; skip] <;>
    · have := hinj _ _ (by omega) (by omega) (hxa.trans hya.symm)
      omega

/-- C3: for every `num_clients ≤ 100`, `load_mnist_dataset` can make its
`num_clients` shard draws from the 200-shard pool (the existence part),
and for every valid draw sequence each client's training partition holds
exactly 600 distinct label-sorted indices (2 shards of 300 each) while
partitions of distinct clients are pairwise disjoint. -/
theorem load_mnist_dataset_spec (DS : Type) (dataset_train dataset_test : DS)
    (sortedIdxs : Nat → Nat) (num_clients batch_size : Nat)
    (hinj : ∀ a b, a < 60000 → b < 60000 → sortedIdxs a = sortedIdxs b → a = b)
    (hnc : num_clients ≤ 100) :
    (∃ picks, picks.length = num_clients ∧ validPicks picks (List.range 200) = true) ∧
      ∀ picks : List (Nat × Nat), picks.length = num_clients →
        validPicks picks (List.range 200) = true →
        (∀ dl ∈ (load_mnist_dataset DS dataset_train dataset_test sortedIdxs picks
            num_clients batch_size).train_data_local_dict,
          dl.dataset.idxs.length = 600 ∧ dl.dataset.idxs.Nodup) ∧
        ((load_mnist_dataset DS dataset_train dataset_test sortedIdxs picks
            num_clients batch_size).train_data_local_dict.map
              (fun dl => dl.dataset.idxs)).Pairwise List.Disjoint := by
  constructor
  · exact exists_validPicks num_clients (List.range 200) (List.nodup_range 200)
      (by rw [List.length_range]; omega)
  · intro picks _ hvalid
    obtain ⟨hmem, hpw⟩ := validPicks_sound picks (List.range 200) hvalid (List.nodup_range 200)
    have hbounds : ∀ p ∈ picks, p.1 < 200 ∧ p.2 < 200 ∧ p.1 ≠ p.2 := by
      intro p hp
      obtain ⟨h1, h2, h3⟩ := hmem p hp
      exact ⟨List.mem_range.mp h1, List.mem_range.mp h2, h3⟩
    constructor
    · intro dl hdl
      obtain ⟨p, hp, hpe⟩ := List.mem_map.mp hdl
      subst hpe
      obtain ⟨h1, h2, h3⟩ := hbounds p hp
      exact ⟨clientPartition_length sortedIdxs p, clientPartition_nodup hinj h1 h2 h3⟩
    · show ((picks.map fun p =>
          (⟨⟨dataset_train, clientPartition sortedIdxs p⟩, batch_size, true, false⟩ :
            DataLoaderM (DatasetSplitM DS))).map (fun dl => dl.dataset.idxs)).Pairwise
          List.Disjoint
      rw [List.map_map, List.pairwise_map]
      refine List.Pairwise.imp_of_mem ?_ hpw
      intro p q hp hq hrel
      obtain ⟨hp1, hp2, _⟩ := hbounds p hp
      obtain ⟨hq1, hq2, _⟩ := hbounds q hq
      exact clientPartition_disjoint hinj hp1 hp2 hq1 hq2 hrel

/-- Witness for `load_mnist_dataset_spec`: identity index permutation,
two clients with shards (0,1) and (2,3). -/
theorem load_mnist_dataset_spec_witness :
    ((∃ picks : List (Nat × Nat), picks.length = 2 ∧
        validPicks picks (List.range 200) = true) ∧
      ∀ picks : List (Nat × Nat), picks.length = 2 →
        validPicks picks (List.range 200) = true →
        (∀ dl ∈ (load_mnist_dataset Unit () () (fun i => i) picks
            2 10).train_data_local_dict,
          dl.dataset.idxs.length = 600 ∧ dl.dataset.idxs.Nodup) ∧
        ((load_mnist_dataset Unit () () (fun i => i) picks
            2 10).train_data_local_dict.map
              (fun dl => dl.dataset.idxs)).Pairwise List.Disjoint) ∧
      validPicks [(0, 1), (2, 3)] (List.range 200) = true :=
  ⟨load_mnist_dataset_spec Unit () () (fun i => i) 2 10
      (fun a b _ _ h => h) (by omega),
    by decide⟩

/-- C10: in the `FederatedDatasetData` returned by `load_mnist_dataset`,
the global train loader wraps the MNIST *test* split and the global test
loader wraps the MNIST *train* split — swapped relative to the underlying
datasets. -/
theorem load_mnist_dataset_globals_swapped (DS : Type) (dataset_train dataset_test : DS)
    (sortedIdxs : Nat → Nat) (picks : List (Nat × Nat)) (num_clients batch_size : Nat) :
    (load_mnist_dataset DS dataset_train dataset_test sortedIdxs picks
        num_clients batch_size).train_data_global
      = ⟨dataset_test, batch_size, true, false⟩ ∧
      (load_mnist_dataset DS dataset_train dataset_test sortedIdxs picks
          num_clients batch_size).test_data_global
        = ⟨dataset_train, batch_size, true, false⟩ :=
  ⟨rfl, rfl⟩

/-! ## Lemmas about `load_femnist_dataset` -/

theorem getD_eq_getElem {α : Type} (l : List α) (i : Nat) (h : i < l.length) (d : α) :
    l.getD i d = l.get ⟨i, h⟩ := by
  rw [List.getD_eq_getElem?_getD, List.getElem?_eq_getElem h]
  rfl

/-- C4: with `sample_threshold ≠ -1`, `load_femnist_dataset` deems a
client eligible exactly when its training-sample count strictly exceeds
the threshold, raises `ValueError` exactly when fewer than `num_clients`
clients are eligible, and otherwise returns `num_clients` distinct
eligible clients. -/
theorem load_femnist_dataset_spec (clients : List FemClient) (num_clients : Nat)
    (sample_threshold : Int) (sel0 sel : List Nat) (ht : sample_threshold ≠ -1) :
    (∀ c, c ∈ eligibleClients sample_threshold clients ↔
        c ∈ clients ∧ sample_threshold < (c.trainSize : Int)) ∧
      ((load_femnist_dataset clients num_clients sample_threshold sel0 sel).isOk = false ↔
        (eligibleClients sample_threshold clients).length < num_clients) ∧
      ∀ r, load_femnist_dataset clients num_clients sample_threshold sel0 sel = .ok r →
        ValidSel sel (eligibleClients sample_threshold clients).length num_clients →
        clients.Nodup →
        r.length = num_clients ∧ r.Nodup ∧
          ∀ c ∈ r, c ∈ eligibleClients sample_threshold clients := by
  have hele : (eligibleClients sample_threshold clients).length ≤ clients.length :=
    List.length_filter_le _ _
  refine ⟨?_, ?_, ?_⟩
  · intro c
    simp [eligibleClients, List.mem_filter]
  · rw [load_femnist_dataset]
    by_cases hshort : clients.length < num_clients
    · rw [if_pos hshort]
      simp only [Except.isOk, Except.toBool]
      exact iff_of_true trivial (by omega)
    · rw [if_neg hshort, if_pos ht]
      by_cases helig : (eligibleClients sample_threshold clients).length < num_clients
      · rw [if_pos helig]
        simp only [Except.isOk, Except.toBool]
        exact iff_of_true trivial helig
      · rw [if_neg helig]
        simp only [Except.isOk, Except.toBool]
        exact iff_of_false (by simp) helig
  · intro r hok hvs hnd
    obtain ⟨hlen, hsnd, hbound⟩ := hvs
    have hr : r = sel.map (fun i =>
        (eligibleClients sample_threshold clients).getD i (FemClient.mk 0 0 0)) := by
      rw [load_femnist_dataset] at hok
      by_cases hshort : clients.length < num_clients
      · rw [if_pos hshort] at hok; exact Except.noConfusion hok
      · rw [if_neg hshort, if_pos ht] at hok
        by_cases helig : (eligibleClients sample_threshold clients).length < num_clients
        · rw [if_pos helig] at hok; exact Except.noConfusion hok
        · rw [if_neg helig] at hok
          exact (Except.ok.injEq _ _ ▸ hok).symm
    have hnde : (eligibleClients sample_threshold clients).Nodup := hnd.filter _
    subst hr
    refine ⟨by rw [List.length_map, hlen], ?_, ?_⟩
    · refine List.Nodup.map_on ?_ hsnd
      intro x hx y hy hxy
      have hxb := hbound x hx
      have hyb := hbound y hy
      rw [getD_eq_getElem _ x hxb, getD_eq_getElem _ y hyb] at hxy
      exact (hnde.getElem_inj_iff).mp hxy
    · intro c hc
      obtain ⟨i, hi, hie⟩ := List.mem_map.mp hc
      have hib := hbound i hi
      rw [getD_eq_getElem _ i hib] at hie
      rw [← hie]
      exact List.get_mem _ _ hib

/-- Witness for `load_femnist_dataset_spec`: three clients, threshold
250, two requested. -/
theorem load_femnist_dataset_spec_witness :
    ((∀ c, c ∈ eligibleClients 250 [FemClient.mk 0 300 10, FemClient.mk 1 100 10,
          FemClient.mk 2 400 10] ↔
        c ∈ [FemClient.mk 0 300 10, FemClient.mk 1 100 10, FemClient.mk 2 400 10] ∧
          (250 : Int) < (c.trainSize : Int)) ∧
      ((load_femnist_dataset [FemClient.mk 0 300 10, FemClient.mk 1 100 10,
            FemClient.mk 2 400 10] 2 250 [] [0, 1]).isOk = false ↔
        (eligibleClients 250 [FemClient.mk 0 300 10, FemClient.mk 1 100 10,
            FemClient.mk 2 400 10]).length < 2) ∧
      ∀ r, load_femnist_dataset [FemClient.mk 0 300 10, FemClient.mk 1 100 10,
            FemClient.mk 2 400 10] 2 250 [] [0, 1] = .ok r →
        ValidSel [0, 1] (eligibleClients 250 [FemClient.mk 0 300 10, FemClient.mk 1 100 10,
            FemClient.mk 2 400 10]).length 2 →
        ([FemClient.mk 0 300 10, FemClient.mk 1 100 10, FemClient.mk 2 400 10] :
            List FemClient).Nodup →
        r.length = 2 ∧ r.Nodup ∧
          ∀ c ∈ r, c ∈ eligibleClients 250 [FemClient.mk 0 300 10, FemClient.mk 1 100 10,
            FemClient.mk 2 400 10]) ∧
      (250 : Int) ≠ -1 :=
  ⟨load_femnist_dataset_spec [FemClient.mk 0 300 10, FemClient.mk 1 100 10,
      FemClient.mk 2 400 10] 2 250 [] [0, 1] (by decide), by decide⟩

/-! ## Lemmas about the experiment-driver traces -/

/-- C9: `run_fedavg_experiment` raises `ValueError` for every dataset
outside femnist/mnist/ham10k and `run_hierarchical_clustering` for every
dataset other than femnist, in both cases before any experiment context
or logger has been created. -/
theorem driver_dataset_validation {α β : Type} (dsA dsB : String)
    (cfs : List α) (lrs : List β) (inits mvs : List Nat) (total : Nat)
    (nll : Int) (loadSt : Nat → Nat) (runFA : Nat → Nat → List HClient)
    (hA : dsA ≠ "femnist" ∧ dsA ≠ "mnist" ∧ dsA ≠ "ham10k") (hB : dsB ≠ "femnist") :
    ((run_fedavg_experiment dsA cfs).2 = some "ValueError: dataset unknown" ∧
      ∀ e ∈ (run_fedavg_experiment dsA cfs).1, e.isCtxOrLogger = false) ∧
      ((run_hierarchical_clustering dsB nll cfs lrs inits mvs total loadSt runFA).2
          = some "ValueError: dataset unknown" ∧
        ∀ e ∈ (run_hierarchical_clustering dsB nll cfs lrs inits mvs total loadSt runFA).1,
          e.isCtxOrLogger = false) := by
  obtain ⟨hA1, hA2, hA3⟩ := hA
  have heqA : run_fedavg_experiment dsA cfs
      = ([FAEvent.fixSeeds], some "ValueError: dataset unknown") := by
    rw [run_fedavg_experiment, if_neg hA1, if_neg hA2, if_neg hA3]
  have heqB : run_hierarchical_clustering dsB nll cfs lrs inits mvs total loadSt runFA
      = ([HCEvent.fixSeeds], some "ValueError: dataset unknown") := by
    rw [run_hierarchical_clustering, if_neg hB]
  refine ⟨⟨by rw [heqA], ?_⟩, ⟨by rw [heqB], ?_⟩⟩
  · rw [heqA]
    intro e he
    rw [List.mem_singleton.mp he]
    rfl
  · rw [heqB]
    intro e he
    rw [List.mem_singleton.mp he]
    rfl

/-- Witness for `driver_dataset_validation` at the dataset string
"cifar". -/
theorem driver_dataset_validation_witness :
    (((run_fedavg_experiment "cifar" ([3] : List Nat)).2
          = some "ValueError: dataset unknown" ∧
        ∀ e ∈ (run_fedavg_experiment "cifar" ([3] : List Nat)).1,
          e.isCtxOrLogger = false) ∧
      ((run_hierarchical_clustering "cifar" (-1) ([3] : List Nat) ([4] : List Nat)
            [1] [2] 20 (fun r => r) (fun _ _ => [])).2
          = some "ValueError: dataset unknown" ∧
        ∀ e ∈ (run_hierarchical_clustering "cifar" (-1) ([3] : List Nat) ([4] : List Nat)
            [1] [2] 20 (fun r => r) (fun _ _ => [])).1,
          e.isCtxOrLogger = false)) ∧
      ("cifar" ≠ "femnist" ∧ "cifar" ≠ "mnist" ∧ "cifar" ≠ "ham10k") :=
  ⟨driver_dataset_validation "cifar" "cifar" [3] [4] [1] [2] 20 (-1)
      (fun r => r) (fun _ _ => [])
      (by refine ⟨?_, ?_, ?_⟩ <;> decide) (by decide),
    by refine ⟨?_, ?_, ?_⟩ <;> decide⟩

theorem filter_isLogDist_clusterLoop (loadSt : Nat → Nat) (total : Nat) :
    ∀ (pairs : List (Nat × Nat)) (clients : List HClient),
      (clusterLoop loadSt total clients pairs).filter HCEvent.isLogDist = [] := by
  intro pairs
  induction pairs with
  | nil => intro clients; rfl
  | cons p rest ih =>
    intro clients
    obtain ⟨ri, mv⟩ := p
    rw [clusterLoop]
    rw [List.filter_append]
    rw [ih]
    rfl

theorem fedavgLoop_filter_true : ∀ (idxs : List Nat),
    (fedavgClientFractionLoop true idxs).filter FAEvent.isLogDist = [] := by
  intro idxs
  induction idxs with
  | nil => rfl
  | cons i rest ih =>
    rw [fedavgClientFractionLoop, if_pos rfl]
    simp only [List.filter_append, ih, List.append_nil, List.nil_append]
    rfl

theorem fedavgLoop_filter_false (i : Nat) (rest : List Nat) :
    (fedavgClientFractionLoop false (i :: rest)).filter FAEvent.isLogDist
      = [FAEvent.logDatasetDistribution i] := by
  rw [fedavgClientFractionLoop, if_neg Bool.false_ne_true]
  simp only [List.filter_append, fedavgLoop_filter_true, List.append_nil]
  rfl

theorem hcLrLoop_flag_true (loadSt : Nat → Nat) (runFA : Nat → Nat → List HClient)
    (total : Nat) (pairs : List (Nat × Nat)) (ci : Nat) :
    ∀ lis : List Nat, (hcLrLoop loadSt runFA total pairs ci true lis).2 = true := by
  intro lis
  induction lis with
  | nil => rfl
  | cons li rest ih => rw [hcLrLoop]; exact ih

theorem hcLrLoop_flag_cons (loadSt : Nat → Nat) (runFA : Nat → Nat → List HClient)
    (total : Nat) (pairs : List (Nat × Nat)) (ci : Nat) (logged : Bool)
    (li : Nat) (rest : List Nat) :
    (hcLrLoop loadSt runFA total pairs ci logged (li :: rest)).2 = true := by
  rw [hcLrLoop]
  exact hcLrLoop_flag_true loadSt runFA total pairs ci rest

theorem hcLrLoop_filter_true (loadSt : Nat → Nat) (runFA : Nat → Nat → List HClient)
    (total : Nat) (pairs : List (Nat × Nat)) (ci : Nat) :
    ∀ lis : List Nat,
      ((hcLrLoop loadSt runFA total pairs ci true lis).1).filter HCEvent.isLogDist = [] := by
  intro lis
  induction lis with
  | nil => rfl
  | cons li rest ih =>
    rw [hcLrLoop, if_pos rfl]
    simp only [List.append_assoc, List.filter_append, ih,
      filter_isLogDist_clusterLoop, List.append_nil, List.nil_append]
    rfl

theorem hcLrLoop_filter_false (loadSt : Nat → Nat) (runFA : Nat → Nat → List HClient)
    (total : Nat) (pairs : List (Nat × Nat)) (ci li : Nat) (rest : List Nat) :
    ((hcLrLoop loadSt runFA total pairs ci false (li :: rest)).1).filter HCEvent.isLogDist
      = [HCEvent.logDatasetDistribution ci li] := by
  rw [hcLrLoop, if_neg Bool.false_ne_true]
  simp only [List.append_assoc, List.filter_append, hcLrLoop_filter_true,
    filter_isLogDist_clusterLoop, List.append_nil, List.nil_append]
  rfl

theorem hcCfLoop_filter_true (loadSt : Nat → Nat) (runFA : Nat → Nat → List HClient)
    (total : Nat) (pairs : List (Nat × Nat)) (numLr : Nat) :
    ∀ cis : List Nat,
      (hcCfLoop loadSt runFA total pairs numLr true cis).filter HCEvent.isLogDist = [] := by
  intro cis
  induction cis with
  | nil => rfl
  | cons ci rest ih =>
    rw [hcCfLoop]
    rw [List.filter_append]
    rw [hcLrLoop_filter_true, hcLrLoop_flag_true, ih]
    rfl

theorem hcCfLoop_filter_false (loadSt : Nat → Nat) (runFA : Nat → Nat → List HClient)
    (total : Nat) (pairs : List (Nat × Nat)) (numLr : Nat) (hnl : numLr ≠ 0)
    (ci : Nat) (rest : List Nat) :
    (hcCfLoop loadSt runFA total pairs numLr false (ci :: rest)).filter HCEvent.isLogDist
      = [HCEvent.logDatasetDistribution ci 0] := by
  obtain ⟨m, hm⟩ : ∃ m, numLr = m + 1 := ⟨numLr - 1, by omega⟩
  subst hm
  rw [hcCfLoop]
  rw [List.filter_append]
  rw [List.range_succ_eq_map]
  rw [hcLrLoop_filter_false, hcLrLoop_flag_cons, hcCfLoop_filter_true]
  rfl

/-- C5: in each driver, when the hyperparameter lists are non-empty and
the dataset dispatch succeeds, the full-dataset label-distribution image
is logged exactly once — in the very first iteration over
`client_fraction` (and `lr`) — and never again, whatever the lengths of
those lists. -/
theorem log_dataset_distribution_once {α β : Type} (ds : String)
    (cfs : List α) (lrs : List β) (inits mvs : List Nat) (total : Nat) (nll : Int)
    (loadSt : Nat → Nat) (runFA : Nat → Nat → List HClient)
    (hcf : cfs ≠ []) (hlr : lrs ≠ []) :
    ((run_fedavg_experiment ds cfs).2 = none →
        ((run_fedavg_experiment ds cfs).1).filter FAEvent.isLogDist
          = [FAEvent.logDatasetDistribution 0]) ∧
      ((run_hierarchical_clustering ds nll cfs lrs inits mvs total loadSt runFA).2 = none →
        ((run_hierarchical_clustering ds nll cfs lrs inits mvs total loadSt runFA).1).filter
            HCEvent.isLogDist = [HCEvent.logDatasetDistribution 0 0]) := by
  obtain ⟨k, hk⟩ : ∃ k, cfs.length = k + 1 := by
    cases cfs with
    | nil => exact absurd rfl hcf
    | cons c cs => exact ⟨cs.length, rfl⟩
  have hrange : List.range cfs.length = 0 :: (List.range k).map Nat.succ := by
    rw [hk, List.range_succ_eq_map]
  have hlrne : lrs.length ≠ 0 := fun h => hlr (List.length_eq_zero.mp h)
  constructor
  · intro hok
    have hfa : ∀ name : String, (([FAEvent.fixSeeds, FAEvent.loadDataset name] ++
        fedavgClientFractionLoop false (List.range cfs.length)).filter FAEvent.isLogDist)
          = [FAEvent.logDatasetDistribution 0] := by
      intro name
      rw [List.filter_append, hrange, fedavgLoop_filter_false]
      rfl
    rw [run_fedavg_experiment]
    rw [run_fedavg_experiment] at hok
    by_cases h1 : ds = "femnist"
    · rw [if_pos h1]; exact hfa "femnist"
    · rw [if_neg h1] at hok ⊢
      by_cases h2 : ds = "mnist"
      · rw [if_pos h2]; exact hfa "mnist"
      · rw [if_neg h2] at hok ⊢
        by_cases h3 : ds = "ham10k"
        · rw [if_pos h3]; exact hfa "ham10k"
        · rw [if_neg h3] at hok
          exact Option.noConfusion hok
  · intro hok
    rw [run_hierarchical_clustering]
    rw [run_hierarchical_clustering] at hok
    by_cases h1 : ds = "femnist"
    · rw [if_pos h1]
      simp only [List.append_assoc, List.filter_append]
      rw [hrange, hcCfLoop_filter_false _ _ _ _ _ hlrne]
      have hscratch : ((if nll ≠ -1 then [HCEvent.scratchLabels] else []).filter
          HCEvent.isLogDist) = [] := by
        by_cases hn : nll ≠ -1
        · rw [if_pos hn]; rfl
        · rw [if_neg hn]; rfl
      rw [hscratch]
      rfl
    · rw [if_neg h1] at hok
      exact Option.noConfusion hok

/-- Witness for `log_dataset_distribution_once` on singleton
hyperparameter lists with the femnist dataset, which both drivers
accept: both loops actually run, and each trace's sole
label-distribution log sits in the first iteration. -/
theorem log_dataset_distribution_once_witness :
    ((run_fedavg_experiment "femnist" ([3] : List Nat)).2 = none ∧
        ((run_fedavg_experiment "femnist" ([3] : List Nat)).1).filter FAEvent.isLogDist
          = [FAEvent.logDatasetDistribution 0]) ∧
      ((run_hierarchical_clustering "femnist" (-1) ([3] : List Nat) ([4] : List Nat)
            [1] [2] 20 (fun r => r) (fun _ _ => [])).2 = none ∧
        ((run_hierarchical_clustering "femnist" (-1) ([3] : List Nat) ([4] : List Nat)
            [1] [2] 20 (fun r => r) (fun _ _ => [])).1).filter HCEvent.isLogDist
          = [HCEvent.logDatasetDistribution 0 0]) ∧
      (([3] : List Nat) ≠ [] ∧ ([4] : List Nat) ≠ []) :=
  have h := log_dataset_distribution_once "femnist" [3] [4] [1] [2] 20 (-1)
    (fun r => r) (fun _ _ => []) (by decide) (by decide)
  ⟨⟨rfl, h.1 rfl⟩, ⟨rfl, h.2 rfl⟩, by decide, by decide⟩

theorem overwrite_map_model (st : Nat) (cs : List HClient) :
    (overwrite_participants_models st cs).map HClient.model
      = List.replicate cs.length st := by
  rw [overwrite_participants_models, List.map_map]
  exact map_eq_replicate_of_forall cs _ st (fun c _ => rfl)

theorem overwrite_length (st : Nat) (cs : List HClient) :
    (overwrite_participants_models st cs).length = cs.length :=
  List.length_map cs _

theorem mem_generate_configuration {α β : Type} {A : List α} {B : List β} {a : α} {b : β} :
    (a, b) ∈ generate_configuration A B ↔ a ∈ A ∧ b ∈ B := by
  simp [generate_configuration]

theorem clusterLoop_contains (loadSt : Nat → Nat) (total : Nat) :
    ∀ (pairs : List (Nat × Nat)) (cs : List HClient) (ri mv : Nat), (ri, mv) ∈ pairs →
      ∃ pre post, clusterLoop loadSt total cs pairs
        = pre ++ [HCEvent.loadState ri, HCEvent.overwriteModels ri,
            HCEvent.createClusterLogger ri mv,
            HCEvent.runHierarchical ri mv ri (total - ri)
              (List.replicate cs.length (loadSt ri))] ++ post := by
  intro pairs
  induction pairs with
  | nil => intro cs ri mv h; exact absurd h (List.not_mem_nil _)
  | cons p rest ih =>
    intro cs ri mv h
    rcases List.mem_cons.mp h with hhd | htl
    · refine ⟨[], clusterLoop loadSt total
        (overwrite_participants_models (loadSt ri) cs) rest, ?_⟩
      rw [← hhd, clusterLoop, overwrite_map_model]
      rfl
    · obtain ⟨p1, p2⟩ := p
      obtain ⟨pre, post, heq⟩ :=
        ih (overwrite_participants_models (loadSt p1) cs) ri mv htl
      rw [overwrite_length] at heq
      refine ⟨[HCEvent.loadState p1, HCEvent.overwriteModels p1,
          HCEvent.createClusterLogger p1 p2,
          HCEvent.runHierarchical p1 p2 p1 (total - p1)
            ((overwrite_participants_models (loadSt p1) cs).map HClient.model)] ++ pre,
        post, ?_⟩
      rw [clusterLoop, heq]
      simp [List.append_assoc]

theorem hcLrLoop_contains (loadSt : Nat → Nat) (runFA : Nat → Nat → List HClient)
    (total : Nat) (pairs : List (Nat × Nat)) (ci : Nat) :
    ∀ (lis : List Nat) (flag : Bool) (li ri mv : Nat), li ∈ lis → (ri, mv) ∈ pairs →
      ∃ pre post, (hcLrLoop loadSt runFA total pairs ci flag lis).1
        = pre ++ [HCEvent.loadState ri, HCEvent.overwriteModels ri,
            HCEvent.createClusterLogger ri mv,
            HCEvent.runHierarchical ri mv ri (total - ri)
              (List.replicate (runFA ci li).length (loadSt ri))] ++ post := by
  intro lis
  induction lis with
  | nil => intro flag li ri mv h _; exact absurd h (List.not_mem_nil _)
  | cons l rest ih =>
    intro flag li ri mv hmem hpair
    rcases List.mem_cons.mp hmem with hhd | htl
    · subst hhd
      obtain ⟨pre, post, heq⟩ := clusterLoop_contains loadSt total pairs (runFA ci li) ri mv hpair
      refine ⟨[HCEvent.createContext ci li, HCEvent.createLogger ci li] ++
          (if flag then [] else [HCEvent.logDatasetDistribution ci li]) ++
          [HCEvent.runFedavg ci li] ++ pre,
        post ++ (hcLrLoop loadSt runFA total pairs ci true rest).1, ?_⟩
      rw [hcLrLoop]
      show ([HCEvent.createContext ci li, HCEvent.createLogger ci li] ++
          (if flag then [] else [HCEvent.logDatasetDistribution ci li]) ++
          [HCEvent.runFedavg ci li] ++
          clusterLoop loadSt total (runFA ci li) pairs ++
          (hcLrLoop loadSt runFA total pairs ci true rest).1) = _
      rw [heq]
      simp [List.append_assoc]
    · obtain ⟨pre, post, heq⟩ := ih true li ri mv htl hpair
      refine ⟨[HCEvent.createContext ci l, HCEvent.createLogger ci l] ++
          (if flag then [] else [HCEvent.logDatasetDistribution ci l]) ++
          [HCEvent.runFedavg ci l] ++
          clusterLoop loadSt total (runFA ci l) pairs ++ pre,
        post, ?_⟩
      rw [hcLrLoop]
      show ([HCEvent.createContext ci l, HCEvent.createLogger ci l] ++
          (if flag then [] else [HCEvent.logDatasetDistribution ci l]) ++
          [HCEvent.runFedavg ci l] ++
          clusterLoop loadSt total (runFA ci l) pairs ++
          (hcLrLoop loadSt runFA total pairs ci true rest).1) = _
      rw [heq]
      simp [List.append_assoc]

theorem hcCfLoop_contains (loadSt : Nat → Nat) (runFA : Nat → Nat → List HClient)
    (total : Nat) (pairs : List (Nat × Nat)) (numLr : Nat) :
    ∀ (cis : List Nat) (flag : Bool) (ci li ri mv : Nat),
      ci ∈ cis → li ∈ List.range numLr → (ri, mv) ∈ pairs →
      ∃ pre post, hcCfLoop loadSt runFA total pairs numLr flag cis
        = pre ++ [HCEvent.loadState ri, HCEvent.overwriteModels ri,
            HCEvent.createClusterLogger ri mv,
            HCEvent.runHierarchical ri mv ri (total - ri)
              (List.replicate (runFA ci li).length (loadSt ri))] ++ post := by
  intro cis
  induction cis with
  | nil => intro flag ci li ri mv h _ _; exact absurd h (List.not_mem_nil _)
  | cons c rest ih =>
    intro flag ci li ri mv hmem hli hpair
    rcases List.mem_cons.mp hmem with hhd | htl
    · subst hhd
      obtain ⟨pre, post, heq⟩ :=
        hcLrLoop_contains loadSt runFA total pairs ci (List.range numLr) flag li ri mv hli hpair
      refine ⟨pre, post ++ hcCfLoop loadSt runFA total pairs numLr
          (hcLrLoop loadSt runFA total pairs ci flag (List.range numLr)).2 rest, ?_⟩
      rw [hcCfLoop, heq]
      simp [List.append_assoc]
    · obtain ⟨pre, post, heq⟩ := ih
        (hcLrLoop loadSt runFA total pairs c flag (List.range numLr)).2 ci li ri mv htl hli hpair
      refine ⟨(hcLrLoop loadSt runFA total pairs c flag (List.range numLr)).1 ++ pre,
        post, ?_⟩
      rw [hcCfLoop, heq]
      simp [List.append_assoc]

/-- C1: for every `init_rounds` in `cluster_initialization_rounds` and
every `max_value` in `max_value_criterion` (in each hyperparameter
iteration), `run_hierarchical_clustering` loads the checkpoint of round
`init_rounds` (`load_fedavg_state`), overwrites every client's model with
it (`overwrite_participants_models` — all models become the loaded
state), and configures the cluster stage with
`num_rounds_init = init_rounds` and
`num_rounds_cluster = total_fedavg_rounds - init_rounds` before invoking
`run_fedavg_hierarchical`, as one contiguous block of the trace. -/
theorem run_hierarchical_clustering_spec {α β : Type} (nll : Int)
    (cfs : List α) (lrs : List β) (inits mvs : List Nat) (total : Nat)
    (loadSt : Nat → Nat) (runFA : Nat → Nat → List HClient)
    (ci li ri mv : Nat) (hci : ci < cfs.length) (hli : li < lrs.length)
    (hri : ri ∈ inits) (hmv : mv ∈ mvs) :
    ((overwrite_participants_models (loadSt ri) (runFA ci li)).map HClient.model
        = List.replicate (runFA ci li).length (loadSt ri)) ∧
      ∃ pre post,
        (run_hierarchical_clustering "femnist" nll cfs lrs inits mvs total loadSt runFA).1
          = pre ++ [HCEvent.loadState ri, HCEvent.overwriteModels ri,
              HCEvent.createClusterLogger ri mv,
              HCEvent.runHierarchical ri mv ri (total - ri)
                (List.replicate (runFA ci li).length (loadSt ri))] ++ post := by
  refine ⟨overwrite_map_model (loadSt ri) (runFA ci li), ?_⟩
  obtain ⟨pre, post, heq⟩ := hcCfLoop_contains loadSt runFA total
    (generate_configuration inits mvs) lrs.length (List.range cfs.length) false ci li ri mv
    (List.mem_range.mpr hci) (List.mem_range.mpr hli)
    (mem_generate_configuration.mpr ⟨hri, hmv⟩)
  refine ⟨[HCEvent.fixSeeds, HCEvent.loadDataset "femnist"] ++
      (if nll ≠ -1 then [HCEvent.scratchLabels] else []) ++ pre, post, ?_⟩
  rw [run_hierarchical_clustering, if_pos rfl]
  show ([HCEvent.fixSeeds, HCEvent.loadDataset "femnist"] ++
      (if nll ≠ -1 then [HCEvent.scratchLabels] else []) ++
      hcCfLoop loadSt runFA total (generate_configuration inits mvs)
        lrs.length false (List.range cfs.length)) = _
  rw [heq]
  simp [List.append_assoc]

/-- Witness for `run_hierarchical_clustering_spec`: singleton
hyperparameter lists, checkpoint map `r ↦ 100 + r`, two clients, cluster
pair `(3, 5)` with 20 total rounds. -/
theorem run_hierarchical_clustering_spec_witness :
    (((overwrite_participants_models ((fun r => 100 + r) 3)
          ((fun _ _ => [HClient.mk 0 0, HClient.mk 1 1]) 0 0)).map HClient.model
        = List.replicate ((fun (_ _ : Nat) =>
            [HClient.mk 0 0, HClient.mk 1 1]) 0 0).length ((fun r => 100 + r) 3)) ∧
      ∃ pre post,
        (run_hierarchical_clustering "femnist" (-1) ([7] : List Nat) ([9] : List Nat)
            [1, 3] [5] 20 (fun r => 100 + r)
            (fun _ _ => [HClient.mk 0 0, HClient.mk 1 1])).1
          = pre ++ [HCEvent.loadState 3, HCEvent.overwriteModels 3,
              HCEvent.createClusterLogger 3 5,
              HCEvent.runHierarchical 3 5 3 (20 - 3)
                (List.replicate ((fun (_ _ : Nat) =>
                  [HClient.mk 0 0, HClient.mk 1 1]) 0 0).length ((fun r => 100 + r) 3))]
            ++ post) ∧
      ((0 : Nat) < ([7] : List Nat).length ∧ (0 : Nat) < ([9] : List Nat).length ∧
        3 ∈ [1, 3] ∧ 5 ∈ [5]) :=
  ⟨run_hierarchical_clustering_spec (-1) [7] [9] [1, 3] [5] 20 (fun r => 100 + r)
      (fun _ _ => [HClient.mk 0 0, HClient.mk 1 1]) 0 0 3 5
      (by decide) (by decide) (by decide) (by decide),
    by refine ⟨by decide, by decide, by decide, by decide⟩⟩

end Mlmi
